import Mathlib

set_option maxRecDepth 10000

/-!
Shallow embedding of the triple-store core of this repository
(src/pykeen/triples/triples_factory.py): label-to-id mapping, the
TriplesFactory value, masking and restriction, and the split-with-
coverage-repair algorithm, together with proofs of the specified
properties.

Numpy integer triples are modelled as lists of `Triple` records over
`Nat` ids; label triples as `LTriple` records over `String`; Python
dicts as association lists; float ratios as exact rationals; the numpy
random state as an explicit `Rng` value threaded through the code, whose
`uses` field counts how many random draws have been consumed.  Fallible
code returns `Except` or an explicit result type.
-/

/-- An id-based triple row (head id, relation id, tail id). -/
structure Triple where
  h : Nat
  r : Nat
  t : Nat
deriving DecidableEq, Repr, Inhabited

/-- A label-based triple row (head, relation, tail labels). -/
structure LTriple where
  h : String
  r : String
  t : String
deriving DecidableEq, Repr, Inhabited

/-- A 64-bit linear congruential generator step, standing in for the
numpy Mersenne twister: the exact stream does not matter to any claim,
only that it is a deterministic function of the seed. -/
def lcg (s : Nat) : Nat :=
  (6364136223846793005 * s + 1442695040888963407) % 18446744073709551616

/-- Model of a `numpy.random.RandomState`: a deterministic state plus a
counter of how many random draws have been consumed so far. -/
structure Rng where
  state : Nat
  uses : Nat
deriving DecidableEq, Repr

/-- Model of `ensure_random_state` applied to an integer seed. -/
def Rng.ofSeed (seed : Nat) : Rng := ⟨seed, 0⟩

/-- Draw one value from the generator. -/
def Rng.next (rng : Rng) : Nat × Rng :=
  let s := lcg rng.state
  (s, ⟨s, rng.uses + 1⟩)

/-- Ordered insert into a strictly `lt`-sorted duplicate-free list,
skipping elements already present. -/
def insertBy [DecidableEq α] (lt : α → α → Bool) (x : α) : List α → List α
  | [] => [x]
  | y :: ys =>
    if lt x y then x :: y :: ys
    else if x = y then y :: ys
    else y :: insertBy lt x ys

/-- Sort a list and drop duplicates (the composite `sorted(set(...))` /
`np.unique` idiom of the source). -/
def sortDedupBy [DecidableEq α] (lt : α → α → Bool) (l : List α) : List α :=
  l.foldr (insertBy lt) []

/-- Boolean-mask selection over a list, modelling `arr[mask]`. -/
def maskSelect (l : List α) (m : List Bool) : List α :=
  ((l.zip m).filter (fun p => p.2)).map (fun p => p.1)

/-- Cumulative sums starting from an accumulator. -/
def cumsumFrom (acc : Int) : List Int → List Int
  | [] => []
  | x :: xs => (acc + x) :: cumsumFrom (acc + x) xs

/-- Model of `np.cumsum` over integers. -/
def cumsum (l : List Int) : List Int := cumsumFrom 0 l

/-- Resolve one bound of a Python slice `l[a:b]` against length `n`:
negative indices wrap from the end, and both ends clamp into `[0, n]`. -/
def pySliceIdx (n : Nat) (i : Int) : Nat :=
  if i < 0 then ((n : Int) + i).toNat else min i.toNat n

/-- Python slice `l[a:b]` over a list. -/
def pySlice (l : List α) (a b : Int) : List α :=
  (l.take (pySliceIdx l.length b)).drop (pySliceIdx l.length a)

/-- Slices of `l` between consecutive division points, starting at
`prev` and ending at `l.length`; helper for `npSplit`. -/
def npSplitGo (l : List α) (prev : Int) : List Int → List (List α)
  | [] => [pySlice l prev (l.length : Int)]
  | c :: cs => pySlice l prev c :: npSplitGo l c cs

/-- Model of `np.vsplit(l, cuts)`: division points `[0] ++ cuts ++ [n]`,
one Python slice per consecutive pair. -/
def npSplit (l : List α) (cuts : List Int) : List (List α) :=
  npSplitGo l 0 cuts

/-- Indices of the true bits of a mask, counting from `k`; helper for
`trueIdxs`. -/
def trueIdxsFrom (k : Nat) : List Bool → List Nat
  | [] => []
  | b :: bs => if b then k :: trueIdxsFrom (k + 1) bs else trueIdxsFrom (k + 1) bs

/-- Model of `mask.nonzero()[0]`: the indices at which the mask is true. -/
def trueIdxs (m : List Bool) : List Nat := trueIdxsFrom 0 m

/-- Look up every label in an association list, failing like Python
`dict.__getitem__` on the first missing key. -/
def lookupAll (m : List (String × β)) : List String → Except String (List β)
  | [] => .ok []
  | l :: ls =>
    match m.lookup l with
    | none => .error ("KeyError: " ++ l)
    | some v =>
      match lookupAll m ls with
      | .error e => .error e
      | .ok vs => .ok (v :: vs)

/-- Strict lexicographic comparison of char lists by code points,
matching Python string comparison. -/
def charListLt : List Char → List Char → Bool
  | _, [] => false
  | [], _ :: _ => true
  | a :: as, b :: bs =>
    a.toNat < b.toNat || (a.toNat == b.toNat && charListLt as bs)

/-- Strict string comparison by code points. -/
def strLtB (a b : String) : Bool := charListLt a.data b.data

/-- The `INVERSE_SUFFIX` constant of the source. -/
def INVERSE_SUFFIX : String := "_inverse"

/-- Whether a relation label ends with the inverse suffix. -/
def endsInv (s : String) : Bool := INVERSE_SUFFIX.data.isSuffixOf s.data

/-- Strip one trailing inverse suffix, modelling the regular-expression
substitution with pattern anchored at the end of the label. -/
def stripInv (s : String) : String :=
  if endsInv s then ⟨s.data.take (s.data.length - INVERSE_SUFFIX.data.length)⟩ else s

/-- Strict order on the sort key used by `create_relation_mapping`:
the pair (label with suffix stripped, whether the label carries the
suffix), compared lexicographically with false before true. -/
def relKeyLt (a b : String) : Bool :=
  strLtB (stripInv a) (stripInv b) ||
    (stripInv a == stripInv b && (!endsInv a && endsInv b))

/-- Strict lexicographic order on id rows by (head, relation, tail);
the row order produced by `np.unique(..., axis=0)`. -/
def tripleLt (a b : Triple) : Bool :=
  a.h < b.h || (a.h == b.h && (a.r < b.r || (a.r == b.r && a.t < b.t)))

/-- Sorted deduplication of id rows, modelling `np.unique(ar, axis=0)`. -/
def uniqueRows (l : List Triple) : List Triple := sortDedupBy tripleLt l

/-- Model of `create_entity_mapping`: union of head and tail labels,
sorted, assigned sequential ids. -/
def create_entity_mapping (triples : List LTriple) : List (String × Nat) :=
  let entity_labels := sortDedupBy strLtB (triples.map (fun x => x.h) ++ triples.map (fun x => x.t))
  entity_labels.enum.map (fun p => (p.2, p.1))

/-- Model of `create_relation_mapping`: relation labels sorted by
(stripped label, carries-suffix), assigned sequential ids. -/
def create_relation_mapping (relations : List String) : List (String × Nat) :=
  let relation_labels := sortDedupBy relKeyLt relations
  relation_labels.enum.map (fun p => (p.2, p.1))

/-- Modelled from the spec: `compact_mapping` lives in pykeen.utils,
which is not under src/; section 4.1 of the spec describes it as
renumbering an arbitrary id mapping to a contiguous range starting at 0
while preserving relative order of the ids. -/
def compact_mapping (m : List (String × Nat)) : List (String × Nat) :=
  let sortedIds := sortDedupBy (fun a b : Nat => decide (a < b)) (m.map (fun p => p.2))
  m.map (fun p => (p.1, sortedIds.findIdx (fun x => x == p.2)))

/-- Map one label row to an id row; `none` models the -1 sentinel given
by `dict.get` to rows referencing a label absent from the mappings. -/
def rowMapped (entity_to_id : List (String × Nat)) (relation_to_id : List (String × Nat))
    (x : LTriple) : Option Triple :=
  match entity_to_id.lookup x.h, relation_to_id.lookup x.r, entity_to_id.lookup x.t with
  | some hh, some rr, some tt => some ⟨hh, rr, tt⟩
  | _, _, _ => none

/-- Model of `_map_triples_elements_to_ids`: look up all three labels of
each row, drop and count rows with any missing label, deduplicate the
survivors via `np.unique`.  Returns the id rows and the dropped count
that the source logs. -/
def map_triples_elements_to_ids (triples : List LTriple)
    (entity_to_id relation_to_id : List (String × Nat)) : List Triple × Nat :=
  if triples.isEmpty then ([], 0)
  else
    let mapped := triples.filterMap (rowMapped entity_to_id relation_to_id)
    (uniqueRows mapped,
      triples.countP (fun x => (rowMapped entity_to_id relation_to_id x).isNone))

/-- The TriplesFactory value: label-to-id mappings, the id-triple rows,
and the optional relation-to-inverse label map. -/
structure TriplesFactory where
  entity_to_id : List (String × Nat)
  relation_to_id : List (String × Nat)
  mapped_triples : List Triple
  relation_to_inverse : Option (List (String × String))
deriving DecidableEq, Repr

/-- Model of `TriplesFactory._check_already_inverted_relations`. -/
def checkAlreadyInverted (relations : List String) : Bool :=
  relations.any endsInv

/-- Model of `TriplesFactory.from_labeled_triples`. -/
def TriplesFactory.from_labeled_triples (triples : List LTriple)
    (create_inverse_triples : Bool)
    (entity_to_id? : Option (List (String × Nat)))
    (relation_to_id? : Option (List (String × Nat)))
    (compact_id : Bool) : TriplesFactory :=
  let relations := triples.map (fun x => x.r)
  let unique_relations := relations.dedup
  let relations_already_inverted := checkAlreadyInverted unique_relations
  let step :
      Option (List (String × String)) × List LTriple :=
    if create_inverse_triples || relations_already_inverted then
      if relations_already_inverted then
        (some ((unique_relations.map
          (fun rel => (stripInv rel, stripInv rel ++ INVERSE_SUFFIX))).dedup), triples)
      else
        let relation_to_inverse := unique_relations.map (fun rel => (rel, rel ++ INVERSE_SUFFIX))
        let inverse_triples := triples.map (fun x =>
          LTriple.mk x.t ((relation_to_inverse.lookup x.r).getD (x.r ++ INVERSE_SUFFIX)) x.h)
        (some relation_to_inverse, triples ++ inverse_triples)
    else
      (none, triples)
  let relation_to_inverse := step.1
  let triples2 := step.2
  let e2i0 :=
    match entity_to_id? with
    | none => create_entity_mapping triples2
    | some m => m
  let e2i := if compact_id then compact_mapping e2i0 else e2i0
  let r2i0 :=
    match relation_to_id? with
    | none =>
      match relation_to_inverse with
      | some r2inv =>
        create_relation_mapping (r2inv.map (fun p => p.1) ++ r2inv.map (fun p => p.2))
      | none => create_relation_mapping unique_relations
    | some m => m
  let r2i := if compact_id then compact_mapping r2i0 else r2i0
  { entity_to_id := e2i
    relation_to_id := r2i
    mapped_triples := (map_triples_elements_to_ids triples2 e2i r2i).1
    relation_to_inverse := relation_to_inverse }

/-- Model of `TriplesFactory.get_inverse_relation_id`: fails when
inverse triples were not created or a lookup misses. -/
def TriplesFactory.get_inverse_relation_id (tf : TriplesFactory) (relation : String) :
    Except String Nat :=
  match tf.relation_to_inverse with
  | none => .error "Can not get inverse triple, they have not been created."
  | some r2inv =>
    match r2inv.lookup relation with
    | none => .error ("KeyError: " ++ relation)
    | some inverse_relation =>
      match tf.relation_to_id.lookup inverse_relation with
      | none => .error ("KeyError: " ++ inverse_relation)
      | some i => .ok i

/-- Model of `entities_to_ids` restricted to the label entry point
(section 9 of the spec: label-or-id duck typing resolved at the API
boundary); a missing label raises a lookup error. -/
def TriplesFactory.entities_to_ids (tf : TriplesFactory) (entities : List String) :
    Except String (List Nat) :=
  lookupAll tf.entity_to_id entities

/-- Model of `relations_to_ids` restricted to the label entry point. -/
def TriplesFactory.relations_to_ids (tf : TriplesFactory) (relations : List String) :
    Except String (List Nat) :=
  lookupAll tf.relation_to_id relations

/-- Model of `get_mask_for_entities`: boolean selection requiring both
head and tail to lie in the id set (or, inverted, both outside it). -/
def TriplesFactory.get_mask_for_entities (tf : TriplesFactory) (entities : List String)
    (invert : Bool) : Except String (List Bool) :=
  match tf.entities_to_ids entities with
  | .error e => .error e
  | .ok ids =>
    .ok (tf.mapped_triples.map (fun x =>
      xor (ids.contains x.h) invert && xor (ids.contains x.t) invert))

/-- Model of `get_mask_for_relations`: boolean selection on the
relation column. -/
def TriplesFactory.get_mask_for_relations (tf : TriplesFactory) (relations : List String)
    (invert : Bool) : Except String (List Bool) :=
  match tf.relations_to_ids relations with
  | .error e => .error e
  | .ok ids =>
    .ok (tf.mapped_triples.map (fun x => xor (ids.contains x.r) invert))

/-- Model of `new_with_relations`: keep only triples whose relation is
in the given set, sharing the parent mappings. -/
def TriplesFactory.new_with_relations (tf : TriplesFactory) (relations : List String) :
    Except String TriplesFactory :=
  match tf.get_mask_for_relations relations false with
  | .error e => .error e
  | .ok mask =>
    .ok { entity_to_id := tf.entity_to_id
          relation_to_id := tf.relation_to_id
          mapped_triples := maskSelect tf.mapped_triples mask
          relation_to_inverse := tf.relation_to_inverse }

/-- Result of `new_with_restriction`, recording which return statement
of the source executed: `same` is the `return self` path taken when no
filter is given, `fresh` wraps a newly constructed factory, and `err`
models a raised KeyError. -/
inductive RestrictResult where
  | same : RestrictResult
  | fresh : TriplesFactory → RestrictResult
  | err : String → RestrictResult
deriving DecidableEq, Repr

/-- Model of `new_with_restriction`: when the factory has inverse
relations and a relation filter is requested, the filter is extended
with each label's inverse via `relation_to_inverse.__getitem__` (which
raises on a missing key); then entity and relation masks are combined
and a new factory sharing the parent mappings is returned, except that
with no filter at all the source returns `self` unchanged. -/
def TriplesFactory.new_with_restriction (tf : TriplesFactory)
    (entities : Option (List String)) (relations : Option (List String)) : RestrictResult :=
  let relationsE : Except String (Option (List String)) :=
    match tf.relation_to_inverse, relations with
    | some r2inv, some rs =>
      match lookupAll r2inv rs with
      | .error e => .error e
      | .ok invs => .ok (some (rs ++ invs))
    | _, _ => .ok relations
  match relationsE with
  | .error e => .err e
  | .ok relations2 =>
    match entities, relations2 with
    | none, none => .same
    | none, some rs =>
      match tf.get_mask_for_relations rs false with
      | .error e => .err e
      | .ok mask =>
        .fresh { entity_to_id := tf.entity_to_id
                 relation_to_id := tf.relation_to_id
                 mapped_triples := maskSelect tf.mapped_triples mask
                 relation_to_inverse := tf.relation_to_inverse }
    | some es, none =>
      match tf.get_mask_for_entities es false with
      | .error e => .err e
      | .ok mask =>
        .fresh { entity_to_id := tf.entity_to_id
                 relation_to_id := tf.relation_to_id
                 mapped_triples := maskSelect tf.mapped_triples mask
                 relation_to_inverse := tf.relation_to_inverse }
    | some es, some rs =>
      match tf.get_mask_for_entities es false with
      | .error e => .err e
      | .ok emask =>
        match tf.get_mask_for_relations rs false with
        | .error e => .err e
        | .ok rmask =>
          .fresh { entity_to_id := tf.entity_to_id
                   relation_to_id := tf.relation_to_id
                   mapped_triples := maskSelect tf.mapped_triples (emask.zipWith and rmask)
                   relation_to_inverse := tf.relation_to_inverse }

/-- First label mapped to the given relation id, modelling a lookup in
the inverted relation mapping. -/
def TriplesFactory.relation_id_to_label (tf : TriplesFactory) (i : Nat) : Option String :=
  (tf.relation_to_id.find? (fun p => p.2 == i)).map (fun p => p.1)

/-- The set of relation labels present in the rows of a factory. -/
def TriplesFactory.relationLabelsPresent (tf : TriplesFactory) : List String :=
  ((tf.mapped_triples.map (fun x => x.r)).dedup).filterMap tf.relation_id_to_label

/-- All entity ids occurring in head or tail position of a row list;
membership model of `np.unique(triples[:, [0, 2]])`. -/
def entIds (l : List Triple) : List Nat :=
  l.map (fun x => x.h) ++ l.map (fun x => x.t)

/-- All relation ids of a row list. -/
def relIds (l : List Triple) : List Nat :=
  l.map (fun x => x.r)

/-- Whether a row of `testing` carries an entity or relation id that is
present in `testing` but absent from `training`; the per-row predicate
behind `_prepare_cleanup`. -/
def mustMoveRow (training testing : List Triple) (x : Triple) : Bool :=
  let toMoveEnt := (entIds testing).filter (fun e => !((entIds training).contains e))
  let toMoveRel := (relIds testing).filter (fun e => !((relIds training).contains e))
  (toMoveEnt.contains x.h || toMoveEnt.contains x.t) || toMoveRel.contains x.r

/-- Model of `_prepare_cleanup`: the must-move mask over `testing`. -/
def prepare_cleanup (training testing : List Triple) : List Bool :=
  testing.map (mustMoveRow training testing)

/-- Model of `_tf_cleanup_deterministic`: move the entire must-move
subset from `testing` to `training` in one batch. -/
def tf_cleanup_deterministic (training testing : List Triple) :
    List Triple × List Triple :=
  let move_id_mask := prepare_cleanup training testing
  (training ++ maskSelect testing move_id_mask,
   maskSelect testing (move_id_mask.map (fun b => !b)))

/-- One iteration of the randomized cleanup loop: pick one uniformly
chosen must-move row, move it to `training`, delete it from `testing`. -/
def cleanupRandStep (training testing : List Triple) (rng : Rng) :
    List Triple × List Triple × Rng :=
  let move_id_mask := prepare_cleanup training testing
  let nz := trueIdxs move_id_mask
  let v := rng.next
  let idx := nz.getD (v.1 % nz.length) 0
  (training ++ [testing.getD idx default], testing.eraseIdx idx, v.2)

/-- Fuel-indexed randomized cleanup loop; `tf_cleanup_randomized`
supplies fuel `testing.length`, which lemma proofs show always
suffices because every iteration removes exactly one testing row. -/
def cleanupRandLoop : Nat → List Triple → List Triple → Rng →
    List Triple × List Triple × Rng
  | 0, training, testing, rng => (training, testing, rng)
  | fuel + 1, training, testing, rng =>
    if (prepare_cleanup training testing).any (fun b => b) then
      let s := cleanupRandStep training testing rng
      cleanupRandLoop fuel s.1 s.2.1 s.2.2
    else (training, testing, rng)

/-- Model of `_tf_cleanup_randomized`. -/
def tf_cleanup_randomized (training testing : List Triple) (rng : Rng) :
    List Triple × List Triple × Rng :=
  cleanupRandLoop testing.length training testing rng

/-- Sequential pairwise cleanup against the growing reference group;
helper for `tf_cleanup_all`. -/
def tfCleanupAllGo (randomize : Bool) (reference : List Triple)
    (others : List (List Triple)) (rng : Rng) :
    List Triple × List (List Triple) × Rng :=
  match others with
  | [] => (reference, [], rng)
  | other :: rest =>
    let s :=
      if randomize then tf_cleanup_randomized reference other rng
      else
        let p := tf_cleanup_deterministic reference other
        (p.1, p.2, rng)
    let q := tfCleanupAllGo randomize s.1 rest s.2.2
    (q.1, s.2.1 :: q.2.1, q.2.2)

/-- Model of `_tf_cleanup_all`: clean every later group against the
first, threading the grown reference left to right. -/
def tf_cleanup_all (triples_groups : List (List Triple)) (randomize : Bool) (rng : Rng) :
    List (List Triple) × Rng :=
  match triples_groups with
  | [] => ([], rng)
  | reference :: others =>
    let q := tfCleanupAllGo randomize reference others rng
    (q.1 :: q.2.1, q.2.2)

/-- Fuel-indexed uniform shuffle: repeatedly extract the element at a
random position; stands in for `random_state.shuffle`. -/
def shuffleGo [Inhabited α] : Nat → List α → Rng → List α × Rng
  | 0, _, rng => ([], rng)
  | fuel + 1, l, rng =>
    if l.isEmpty then ([], rng)
    else
      let v := rng.next
      let i := v.1 % l.length
      let rest := shuffleGo fuel (l.eraseIdx i) v.2
      (l.getD i default :: rest.1, rest.2)

/-- Shuffle a list, consuming one random draw per element. -/
def Rng.shuffleList [Inhabited α] (rng : Rng) (l : List α) : List α × Rng :=
  shuffleGo l.length l rng

/-- Python `int()` truncation toward zero of an exact rational, the
model of `int(split_ratio * n_triples)`. -/
def truncQ (q : ℚ) : Int :=
  if 0 ≤ q then ⌊q⌋ else ⌈q⌉

/-- The validation error message of `split` for ratio sums above one. -/
def errRatios : String := "ratios sum to more than 1.0"

/-- The non-error tail of `split`, after ratio normalization: sizes by
truncated multiplication, cumulative cut points, permuted slicing,
coverage cleanup, and wrapping each group into a factory that shares
the parent mappings. -/
def TriplesFactory.splitBody (tf : TriplesFactory) (ratios2 : List ℚ) (idx : List Nat)
    (rng1 : Rng) (randomize_cleanup : Bool) : List TriplesFactory × Rng :=
  let n := tf.mapped_triples.length
  let sizes := ratios2.map (fun q => truncQ (q * (n : ℚ)))
  let split_idxs := cumsum sizes
  let permuted := idx.map (fun i => tf.mapped_triples.getD i default)
  let triples_groups := npSplit permuted split_idxs
  let c := tf_cleanup_all triples_groups randomize_cleanup rng1
  (c.1.map (fun g =>
    { entity_to_id := tf.entity_to_id
      relation_to_id := tf.relation_to_id
      mapped_triples := g
      relation_to_inverse := tf.relation_to_inverse }), c.2)

/-- Model of `TriplesFactory.split`.  As in the source, the random
permutation of triple indices is drawn BEFORE the ratio list is
validated; a raised validation error is modelled as `.error` carrying
the message and the random state at the moment of the raise. -/
def TriplesFactory.split (tf : TriplesFactory) (ratios : List ℚ) (rng : Rng)
    (randomize_cleanup : Bool) :
    Except (String × Rng) (List TriplesFactory × Rng) :=
  let n := tf.mapped_triples.length
  let p := rng.shuffleList (List.range n)
  let ratio_sum := ratios.sum
  if ratio_sum = 1 then .ok (tf.splitBody ratios.dropLast p.1 p.2 randomize_cleanup)
  else if 1 < ratio_sum then .error (errRatios, p.2)
  else .ok (tf.splitBody ratios p.1 p.2 randomize_cleanup)

/-- Propositional form of the strict row order `tripleLt`. -/
def TLtP (a b : Triple) : Prop := tripleLt a b = true

instance instTLtPAntisymm : IsAntisymm Triple TLtP :=
  ⟨fun a b h1 h2 => by
    exfalso
    simp only [TLtP, tripleLt, Bool.or_eq_true, Bool.and_eq_true, decide_eq_true_eq,
      beq_iff_eq] at h1 h2
    omega⟩

/-- Extract the factory of a `fresh` restriction result, with a default
for the other outcomes. -/
def restrictGetFresh (d : TriplesFactory) : RestrictResult → TriplesFactory
  | .fresh f => f
  | _ => d

/-- The partition list of a successful split, empty on error. -/
def splitGroupsD (r : Except (String × Rng) (List TriplesFactory × Rng)) :
    List TriplesFactory :=
  match r with
  | .ok p => p.1
  | .error _ => []

/-- Total number of triples over the partitions of a successful split. -/
def splitSizesSum (r : Except (String × Rng) (List TriplesFactory × Rng)) : Option Nat :=
  match r with
  | .ok p => some ((p.1.map (fun g => g.mapped_triples.length)).sum)
  | .error _ => none

/-- Number of random draws consumed at the moment a split raised. -/
def splitErrUses (r : Except (String × Rng) (List TriplesFactory × Rng)) : Option Nat :=
  match r with
  | .error p => some p.2.uses
  | .ok _ => none

/-- First partition of a factory list, with an empty default. -/
def tfHeadD (l : List TriplesFactory) : TriplesFactory :=
  l.headD ⟨[], [], [], none⟩

/-- The scenario-B factory: one labeled triple with inverse creation. -/
def tfL8 : TriplesFactory :=
  TriplesFactory.from_labeled_triples [⟨"a", "likes", "b"⟩] true none none true

/-- The first restriction of `tfL8` to the relation set containing just
the base relation label. -/
def c5f1 : TriplesFactory :=
  restrictGetFresh tfL8 (tfL8.new_with_restriction none (some ["likes"]))

/-- A factory without inverse relations, for the amended idempotence
property. -/
def tfNoInv : TriplesFactory :=
  TriplesFactory.from_labeled_triples
    [⟨"a", "likes", "b"⟩, ⟨"b", "hates", "c"⟩] false none none true

/-- The first restriction of `tfNoInv` to one relation label. -/
def c5w1 : TriplesFactory :=
  restrictGetFresh tfNoInv (tfNoInv.new_with_restriction none (some ["likes"]))

/-- A direct five-row factory used in concrete split runs. -/
def tf5 : TriplesFactory :=
  ⟨[], [], [⟨0, 0, 1⟩, ⟨1, 0, 2⟩, ⟨2, 0, 3⟩, ⟨3, 0, 4⟩, ⟨4, 0, 0⟩], none⟩

/-- A restriction of `tf5` by an empty entity set, a fresh factory. -/
def c6restr : TriplesFactory :=
  restrictGetFresh tf5 (tf5.new_with_restriction (some []) none)

deriving instance DecidableEq for Except

/-- The random state carried by a split result. -/
def splitRngD (r : Except (String × Rng) (List TriplesFactory × Rng)) : Rng :=
  match r with
  | .ok p => p.2
  | .error p => p.2

/-- Partitions of a concrete randomized-cleanup split of `tf5`. -/
def c1gs : List TriplesFactory :=
  splitGroupsD (tf5.split [17/50, 33/100, 33/100] (Rng.ofSeed 5) true)

/-- First partition of that split. -/
def c1g0 : TriplesFactory := tfHeadD c1gs

/-- Partitions of a concrete deterministic-cleanup split of `tf5`. -/
def c2gs : List TriplesFactory :=
  splitGroupsD (tf5.split [1/2] (Rng.ofSeed 9) false)

/-- Partitions of a second concrete deterministic split of `tf5`. -/
def c6gs : List TriplesFactory :=
  splitGroupsD (tf5.split [1/2] (Rng.ofSeed 2) false)

/-- Extract the factory of a successful Except result, with default. -/
def exceptTFD (d : TriplesFactory) : Except String TriplesFactory → TriplesFactory
  | .ok f => f
  | .error _ => d

theorem maskSelect_map_self (l : List α) (f : α → Bool) :
    maskSelect l (l.map f) = l.filter f := by
  induction l with
  | nil => rfl
  | cons a as ih =>
    cases h : f a <;>
      simp only [maskSelect, List.map_cons, List.zip_cons_cons, List.filter_cons, h] at ih ⊢ <;>
      simpa [h] using ih

theorem maskSelect_map_not (l : List α) (f : α → Bool) :
    maskSelect l ((l.map f).map (fun b => !b)) = l.filter (fun x => !(f x)) := by
  rw [List.map_map]
  exact maskSelect_map_self l (fun x => !(f x))

theorem mem_entIds {e : Nat} {l : List Triple} :
    e ∈ entIds l ↔ ∃ x ∈ l, x.h = e ∨ x.t = e := by
  simp only [entIds, List.mem_append, List.mem_map]
  constructor
  · rintro (⟨x, hx, rfl⟩ | ⟨x, hx, rfl⟩)
    · exact ⟨x, hx, Or.inl rfl⟩
    · exact ⟨x, hx, Or.inr rfl⟩
  · rintro ⟨x, hx, rfl | rfl⟩
    · exact Or.inl ⟨x, hx, rfl⟩
    · exact Or.inr ⟨x, hx, rfl⟩

theorem mem_relIds {e : Nat} {l : List Triple} :
    e ∈ relIds l ↔ ∃ x ∈ l, x.r = e := by
  simp only [relIds, List.mem_map]

theorem entIds_mono {l1 l2 : List Triple} (h : ∀ x ∈ l1, x ∈ l2) :
    ∀ e ∈ entIds l1, e ∈ entIds l2 := by
  intro e he
  rcases mem_entIds.1 he with ⟨x, hx, hor⟩
  exact mem_entIds.2 ⟨x, h x hx, hor⟩

theorem relIds_mono {l1 l2 : List Triple} (h : ∀ x ∈ l1, x ∈ l2) :
    ∀ e ∈ relIds l1, e ∈ relIds l2 := by
  intro e he
  rcases mem_relIds.1 he with ⟨x, hx, hor⟩
  exact mem_relIds.2 ⟨x, h x hx, hor⟩

theorem mustMoveRow_false {training testing : List Triple} {x : Triple}
    (hx : x ∈ testing) (h : mustMoveRow training testing x = false) :
    x.h ∈ entIds training ∧ x.t ∈ entIds training ∧ x.r ∈ relIds training := by
  simp only [mustMoveRow, Bool.or_eq_false_iff] at h
  obtain ⟨⟨hh, ht⟩, hr⟩ := h
  simp only [List.contains_eq_any_beq, List.any_eq_false, List.mem_filter,
    Bool.not_eq_true, beq_iff_eq, Bool.not_eq_eq_eq_not, Bool.not_true,
    and_imp] at hh ht hr
  refine ⟨?_, ?_, ?_⟩
  · by_contra hc
    refine absurd (hh x.h (mem_entIds.2 ⟨x, hx, Or.inl rfl⟩) ?_ rfl) (by simp)
    exact fun y hy hEq => hc (hEq ▸ hy)
  · by_contra hc
    refine absurd (ht x.t (mem_entIds.2 ⟨x, hx, Or.inr rfl⟩) ?_ rfl) (by simp)
    exact fun y hy hEq => hc (hEq ▸ hy)
  · by_contra hc
    refine absurd (hr x.r (mem_relIds.2 ⟨x, hx, rfl⟩) ?_ rfl) (by simp)
    exact fun y hy hEq => hc (hEq ▸ hy)

theorem trueIdxsFrom_lt {m : List Bool} : ∀ {k i : Nat}, i ∈ trueIdxsFrom k m → i < k + m.length := by
  induction m with
  | nil => intro k i h; simp [trueIdxsFrom] at h
  | cons b bs ih =>
    intro k i h
    rw [trueIdxsFrom] at h
    cases b
    · simp only [Bool.false_eq_true, if_false] at h
      have := ih h
      simp only [List.length_cons]
      omega
    · simp only [if_true, List.mem_cons] at h
      rcases h with rfl | h
      · simp
      · have := ih h
        simp only [List.length_cons]
        omega

theorem trueIdxsFrom_ne_nil {m : List Bool} (h : m.any (fun b => b) = true) :
    ∀ k, trueIdxsFrom k m ≠ [] := by
  induction m with
  | nil => simp at h
  | cons b bs ih =>
    intro k
    rw [trueIdxsFrom]
    cases hb : b
    · subst hb
      simp only [List.any_cons, Bool.false_or] at h
      simpa using ih h (k + 1)
    · simp

theorem perm_getD_cons_eraseIdx [Inhabited α] {l : List α} {i : Nat} (h : i < l.length) :
    List.Perm (l.getD i default :: l.eraseIdx i) l := by
  rw [List.getD_eq_getElem _ _ h, List.eraseIdx_eq_take_drop_succ]
  have hsplit : l = l.take i ++ l.drop i := (List.take_append_drop i l).symm
  have hdrop : l.drop i = l[i] :: l.drop (i + 1) := (List.getElem_cons_drop l i h).symm
  calc
    List.Perm (l[i] :: (l.take i ++ l.drop (i + 1)))
        (l.take i ++ l[i] :: l.drop (i + 1)) := List.perm_middle.symm
    _ = l := by rw [← hdrop, ← hsplit]

theorem cleanupRandStep_spec {training testing : List Triple} (rng : Rng)
    (h : (prepare_cleanup training testing).any (fun b => b) = true) :
    (cleanupRandStep training testing rng).2.1.length + 1 = testing.length ∧
    (∀ x ∈ training, x ∈ (cleanupRandStep training testing rng).1) ∧
    List.Perm ((cleanupRandStep training testing rng).1 ++
      (cleanupRandStep training testing rng).2.1) (training ++ testing) := by
  have hmask : (prepare_cleanup training testing).length = testing.length := by
    simp [prepare_cleanup]
  have hnz : trueIdxs (prepare_cleanup training testing) ≠ [] :=
    trueIdxsFrom_ne_nil h 0
  have hpos : 0 < (trueIdxs (prepare_cleanup training testing)).length :=
    List.length_pos.2 hnz
  have hmod : (rng.next.1 % (trueIdxs (prepare_cleanup training testing)).length) <
      (trueIdxs (prepare_cleanup training testing)).length := Nat.mod_lt _ hpos
  have hidxmem : (trueIdxs (prepare_cleanup training testing)).getD
      (rng.next.1 % (trueIdxs (prepare_cleanup training testing)).length) 0 ∈
      trueIdxs (prepare_cleanup training testing) := by
    rw [List.getD_eq_getElem _ _ hmod]
    exact List.getElem_mem _
  have hidxlt : (trueIdxs (prepare_cleanup training testing)).getD
      (rng.next.1 % (trueIdxs (prepare_cleanup training testing)).length) 0 <
      testing.length := by
    have hlt := trueIdxsFrom_lt hidxmem
    rw [hmask] at hlt
    simpa using hlt
  refine ⟨?_, ?_, ?_⟩
  · simp only [cleanupRandStep]
    rw [List.length_eraseIdx_of_lt hidxlt]
    omega
  · intro x hx
    simp only [cleanupRandStep]
    exact List.mem_append.2 (Or.inl hx)
  · simp only [cleanupRandStep, List.append_assoc, List.singleton_append]
    exact List.Perm.append_left training (perm_getD_cons_eraseIdx hidxlt)

theorem cleanupRandLoop_spec : ∀ (fuel : Nat) (training testing : List Triple) (rng : Rng),
    testing.length ≤ fuel →
    (prepare_cleanup (cleanupRandLoop fuel training testing rng).1
        (cleanupRandLoop fuel training testing rng).2.1).any (fun b => b) = false ∧
    (∀ x ∈ training, x ∈ (cleanupRandLoop fuel training testing rng).1) ∧
    List.Perm ((cleanupRandLoop fuel training testing rng).1 ++
      (cleanupRandLoop fuel training testing rng).2.1) (training ++ testing) := by
  intro fuel
  induction fuel with
  | zero =>
    intro training testing rng hle
    have hempty : testing = [] := List.eq_nil_of_length_eq_zero (Nat.le_zero.1 hle)
    subst hempty
    exact ⟨by simp [cleanupRandLoop, prepare_cleanup], fun x hx => hx, List.Perm.refl _⟩
  | succ fuel ih =>
    intro training testing rng hle
    by_cases hmask : (prepare_cleanup training testing).any (fun b => b) = true
    · obtain ⟨hlen, hsub, hperm⟩ := cleanupRandStep_spec rng hmask
      have hle2 : (cleanupRandStep training testing rng).2.1.length ≤ fuel := by omega
      obtain ⟨ih1, ih2, ih3⟩ := ih (cleanupRandStep training testing rng).1
        (cleanupRandStep training testing rng).2.1 (cleanupRandStep training testing rng).2.2 hle2
      have hred : cleanupRandLoop (fuel + 1) training testing rng =
          cleanupRandLoop fuel (cleanupRandStep training testing rng).1
            (cleanupRandStep training testing rng).2.1
            (cleanupRandStep training testing rng).2.2 := by
        rw [cleanupRandLoop, if_pos hmask]
      rw [hred]
      exact ⟨ih1, fun x hx => ih2 x (hsub x hx), ih3.trans hperm⟩
    · have hfalse : (prepare_cleanup training testing).any (fun b => b) = false :=
        Bool.eq_false_iff.2 hmask
      have hred : cleanupRandLoop (fuel + 1) training testing rng = (training, testing, rng) := by
        rw [cleanupRandLoop, if_neg hmask]
      rw [hred]
      exact ⟨hfalse, fun x hx => hx, List.Perm.refl _⟩

theorem tf_cleanup_randomized_spec (training testing : List Triple) (rng : Rng) :
    (prepare_cleanup (tf_cleanup_randomized training testing rng).1
        (tf_cleanup_randomized training testing rng).2.1).any (fun b => b) = false ∧
    (∀ x ∈ training, x ∈ (tf_cleanup_randomized training testing rng).1) ∧
    List.Perm ((tf_cleanup_randomized training testing rng).1 ++
      (tf_cleanup_randomized training testing rng).2.1) (training ++ testing) :=
  cleanupRandLoop_spec testing.length training testing rng (Nat.le_refl _)

theorem mask_empty_coverage {training testing : List Triple}
    (h : (prepare_cleanup training testing).any (fun b => b) = false) :
    ∀ x ∈ testing, x.h ∈ entIds training ∧ x.t ∈ entIds training ∧ x.r ∈ relIds training := by
  intro x hx
  have hfalse : mustMoveRow training testing x = false := by
    rw [List.any_eq_false] at h
    have := h (mustMoveRow training testing x)
      (List.mem_map.2 ⟨x, hx, rfl⟩)
    simpa using this
  exact mustMoveRow_false hx hfalse

theorem tf_cleanup_deterministic_spec (training testing : List Triple) :
    (∀ x ∈ training, x ∈ (tf_cleanup_deterministic training testing).1) ∧
    (∀ x ∈ (tf_cleanup_deterministic training testing).2,
        x.h ∈ entIds (tf_cleanup_deterministic training testing).1 ∧
        x.t ∈ entIds (tf_cleanup_deterministic training testing).1 ∧
        x.r ∈ relIds (tf_cleanup_deterministic training testing).1) ∧
    List.Perm ((tf_cleanup_deterministic training testing).1 ++
        (tf_cleanup_deterministic training testing).2) (training ++ testing) := by
  have hsel : (tf_cleanup_deterministic training testing).1 =
      training ++ testing.filter (mustMoveRow training testing) := by
    simp only [tf_cleanup_deterministic, prepare_cleanup, maskSelect_map_self]
  have hsel2 : (tf_cleanup_deterministic training testing).2 =
      testing.filter (fun x => !(mustMoveRow training testing x)) := by
    simp only [tf_cleanup_deterministic, prepare_cleanup, maskSelect_map_not]
  refine ⟨?_, ?_, ?_⟩
  · intro x hx
    rw [hsel]
    exact List.mem_append.2 (Or.inl hx)
  · intro x hx
    rw [hsel2, List.mem_filter] at hx
    obtain ⟨hmem, hmov⟩ := hx
    have hfalse : mustMoveRow training testing x = false := by
      simpa using hmov
    obtain ⟨h1, h2, h3⟩ := mustMoveRow_false hmem hfalse
    have hsub : ∀ y ∈ training, y ∈ (tf_cleanup_deterministic training testing).1 := by
      intro y hy
      rw [hsel]
      exact List.mem_append.2 (Or.inl hy)
    exact ⟨entIds_mono hsub _ h1, entIds_mono hsub _ h2, relIds_mono hsub _ h3⟩
  · rw [hsel, hsel2, List.append_assoc]
    exact (List.Perm.append_left training (List.filter_append_perm _ testing))

theorem pair_cleanup_spec (randomize : Bool) (reference other : List Triple) (rng : Rng) :
    (∀ x ∈ reference, x ∈
        (if randomize then tf_cleanup_randomized reference other rng
         else ((tf_cleanup_deterministic reference other).1,
               (tf_cleanup_deterministic reference other).2, rng)).1) ∧
    (∀ x ∈ (if randomize then tf_cleanup_randomized reference other rng
         else ((tf_cleanup_deterministic reference other).1,
               (tf_cleanup_deterministic reference other).2, rng)).2.1,
        x.h ∈ entIds (if randomize then tf_cleanup_randomized reference other rng
         else ((tf_cleanup_deterministic reference other).1,
               (tf_cleanup_deterministic reference other).2, rng)).1 ∧
        x.t ∈ entIds (if randomize then tf_cleanup_randomized reference other rng
         else ((tf_cleanup_deterministic reference other).1,
               (tf_cleanup_deterministic reference other).2, rng)).1 ∧
        x.r ∈ relIds (if randomize then tf_cleanup_randomized reference other rng
         else ((tf_cleanup_deterministic reference other).1,
               (tf_cleanup_deterministic reference other).2, rng)).1) ∧
    List.Perm ((if randomize then tf_cleanup_randomized reference other rng
         else ((tf_cleanup_deterministic reference other).1,
               (tf_cleanup_deterministic reference other).2, rng)).1 ++
        (if randomize then tf_cleanup_randomized reference other rng
         else ((tf_cleanup_deterministic reference other).1,
               (tf_cleanup_deterministic reference other).2, rng)).2.1)
      (reference ++ other) := by
  cases randomize
  · simp only [if_neg (by simp : ¬(false = true))]
    obtain ⟨h1, h2, h3⟩ := tf_cleanup_deterministic_spec reference other
    exact ⟨h1, h2, h3⟩
  · simp only [if_pos rfl]
    obtain ⟨h1, h2, h3⟩ := tf_cleanup_randomized_spec reference other rng
    exact ⟨h2, mask_empty_coverage h1, h3⟩

theorem tfCleanupAllGo_spec (randomize : Bool) :
    ∀ (others : List (List Triple)) (reference : List Triple) (rng : Rng),
    (∀ x ∈ reference, x ∈ (tfCleanupAllGo randomize reference others rng).1) ∧
    (∀ o ∈ (tfCleanupAllGo randomize reference others rng).2.1,
        (∀ e ∈ entIds o, e ∈ entIds (tfCleanupAllGo randomize reference others rng).1) ∧
        (∀ e ∈ relIds o, e ∈ relIds (tfCleanupAllGo randomize reference others rng).1)) ∧
    List.Perm ((tfCleanupAllGo randomize reference others rng).1 ++
        ((tfCleanupAllGo randomize reference others rng).2.1).flatten)
      (reference ++ others.flatten) := by
  intro others
  induction others with
  | nil =>
    intro reference rng
    exact ⟨fun x hx => hx, by simp [tfCleanupAllGo], by simp [tfCleanupAllGo]⟩
  | cons other rest ih =>
    intro reference rng
    obtain ⟨p1, p2, p3⟩ := pair_cleanup_spec randomize reference other rng
    set s := (if randomize then tf_cleanup_randomized reference other rng
         else ((tf_cleanup_deterministic reference other).1,
               (tf_cleanup_deterministic reference other).2, rng)) with hs
    obtain ⟨i1, i2, i3⟩ := ih s.1 s.2.2
    have hred : tfCleanupAllGo randomize reference (other :: rest) rng =
        ((tfCleanupAllGo randomize s.1 rest s.2.2).1,
         s.2.1 :: (tfCleanupAllGo randomize s.1 rest s.2.2).2.1,
         (tfCleanupAllGo randomize s.1 rest s.2.2).2.2) := by
      rw [tfCleanupAllGo, ← hs]
    rw [hred]
    refine ⟨?_, ?_, ?_⟩
    · intro x hx
      exact i1 x (p1 x hx)
    · intro o ho
      rcases List.mem_cons.1 ho with rfl | ho2
      · constructor
        · intro e he
          rcases mem_entIds.1 he with ⟨x, hx, hor⟩
          obtain ⟨xh, xt, xr⟩ := p2 x hx
          have hsub : ∀ y ∈ s.1, y ∈ (tfCleanupAllGo randomize s.1 rest s.2.2).1 := i1
          rcases hor with rfl | rfl
          · exact entIds_mono hsub _ xh
          · exact entIds_mono hsub _ xt
        · intro e he
          rcases mem_relIds.1 he with ⟨x, hx, hor⟩
          obtain ⟨xh, xt, xr⟩ := p2 x hx
          subst hor
          exact relIds_mono i1 _ xr
      · exact i2 o ho2
    · have step1 : List.Perm
          ((tfCleanupAllGo randomize s.1 rest s.2.2).1 ++
            (s.2.1 :: (tfCleanupAllGo randomize s.1 rest s.2.2).2.1).flatten)
          (((tfCleanupAllGo randomize s.1 rest s.2.2).1 ++
            ((tfCleanupAllGo randomize s.1 rest s.2.2).2.1).flatten) ++ s.2.1) := by
        simp only [List.flatten_cons]
        calc
          List.Perm ((tfCleanupAllGo randomize s.1 rest s.2.2).1 ++
              (s.2.1 ++ ((tfCleanupAllGo randomize s.1 rest s.2.2).2.1).flatten))
            ((tfCleanupAllGo randomize s.1 rest s.2.2).1 ++
              (((tfCleanupAllGo randomize s.1 rest s.2.2).2.1).flatten ++ s.2.1)) :=
            List.Perm.append_left _ List.perm_append_comm
          _ = ((tfCleanupAllGo randomize s.1 rest s.2.2).1 ++
              ((tfCleanupAllGo randomize s.1 rest s.2.2).2.1).flatten) ++ s.2.1 :=
            (List.append_assoc _ _ _).symm
      refine step1.trans ?_
      have step2 : List.Perm
          (((tfCleanupAllGo randomize s.1 rest s.2.2).1 ++
            ((tfCleanupAllGo randomize s.1 rest s.2.2).2.1).flatten) ++ s.2.1)
          ((s.1 ++ rest.flatten) ++ s.2.1) := i3.append_right _
      refine step2.trans ?_
      have step3 : List.Perm ((s.1 ++ rest.flatten) ++ s.2.1) ((s.1 ++ s.2.1) ++ rest.flatten) := by
        rw [List.append_assoc, List.append_assoc]
        exact List.Perm.append_left _ List.perm_append_comm
      refine step3.trans ?_
      have step4 : List.Perm ((s.1 ++ s.2.1) ++ rest.flatten)
          ((reference ++ other) ++ rest.flatten) := p3.append_right _
      refine step4.trans ?_
      rw [List.append_assoc, List.flatten_cons]

theorem tf_cleanup_all_cons (randomize : Bool) (reference : List Triple)
    (others : List (List Triple)) (rng : Rng) :
    tf_cleanup_all (reference :: others) randomize rng =
      ((tfCleanupAllGo randomize reference others rng).1 ::
        (tfCleanupAllGo randomize reference others rng).2.1,
       (tfCleanupAllGo randomize reference others rng).2.2) := rfl

theorem shuffleGo_perm [Inhabited α] :
    ∀ (fuel : Nat) (l : List α) (rng : Rng), l.length ≤ fuel →
    List.Perm (shuffleGo fuel l rng).1 l := by
  intro fuel
  induction fuel with
  | zero =>
    intro l rng hle
    have : l = [] := List.eq_nil_of_length_eq_zero (Nat.le_zero.1 hle)
    subst this
    simp [shuffleGo]
  | succ fuel ih =>
    intro l rng hle
    by_cases hl : l.isEmpty
    · have : l = [] := List.isEmpty_iff.1 hl
      subst this
      simp [shuffleGo]
    · have hne : l ≠ [] := by simpa [List.isEmpty_iff] using hl
      have hpos : 0 < l.length := List.length_pos.2 hne
      have hlt : rng.next.1 % l.length < l.length := Nat.mod_lt _ hpos
      have hred : (shuffleGo (fuel + 1) l rng).1 =
          l.getD (rng.next.1 % l.length) default ::
            (shuffleGo fuel (l.eraseIdx (rng.next.1 % l.length)) rng.next.2).1 := by
        rw [shuffleGo, if_neg (by simpa using hne)]
      rw [hred]
      have hlen : (l.eraseIdx (rng.next.1 % l.length)).length ≤ fuel := by
        rw [List.length_eraseIdx_of_lt hlt]
        omega
      have hrec := ih (l.eraseIdx (rng.next.1 % l.length)) rng.next.2 hlen
      exact (hrec.cons _).trans (perm_getD_cons_eraseIdx hlt)

theorem shuffleGo_uses [Inhabited α] :
    ∀ (fuel : Nat) (l : List α) (rng : Rng), l.length ≤ fuel →
    (shuffleGo fuel l rng).2.uses = rng.uses + l.length := by
  intro fuel
  induction fuel with
  | zero =>
    intro l rng hle
    have : l = [] := List.eq_nil_of_length_eq_zero (Nat.le_zero.1 hle)
    subst this
    simp [shuffleGo]
  | succ fuel ih =>
    intro l rng hle
    by_cases hl : l.isEmpty
    · have : l = [] := List.isEmpty_iff.1 hl
      subst this
      simp [shuffleGo]
    · have hne : l ≠ [] := by simpa [List.isEmpty_iff] using hl
      have hpos : 0 < l.length := List.length_pos.2 hne
      have hlt : rng.next.1 % l.length < l.length := Nat.mod_lt _ hpos
      have hred : (shuffleGo (fuel + 1) l rng).2 =
          (shuffleGo fuel (l.eraseIdx (rng.next.1 % l.length)) rng.next.2).2 := by
        rw [shuffleGo, if_neg (by simpa using hne)]
      rw [hred]
      have hlen : (l.eraseIdx (rng.next.1 % l.length)).length ≤ fuel := by
        rw [List.length_eraseIdx_of_lt hlt]
        omega
      have hrec := ih (l.eraseIdx (rng.next.1 % l.length)) rng.next.2 hlen
      rw [hrec, List.length_eraseIdx_of_lt hlt]
      have huse : rng.next.2.uses = rng.uses + 1 := rfl
      omega

theorem shuffleList_perm [Inhabited α] (rng : Rng) (l : List α) :
    List.Perm (rng.shuffleList l).1 l :=
  shuffleGo_perm l.length l rng (Nat.le_refl _)

theorem shuffleList_uses [Inhabited α] (rng : Rng) (l : List α) :
    (rng.shuffleList l).2.uses = rng.uses + l.length :=
  shuffleGo_uses l.length l rng (Nat.le_refl _)

theorem map_getD_range [Inhabited α] (l : List α) :
    (List.range l.length).map (fun i => l.getD i default) = l := by
  apply List.ext_getElem
  · simp
  · intro i h1 h2
    simp only [List.getElem_map, List.getElem_range]
    exact List.getD_eq_getElem l default h2

theorem drop_take_append_drop (l : List α) (a b : Nat) (hab : a ≤ b) (han : a ≤ l.length) :
    (l.take b).drop a ++ l.drop b = l.drop a := by
  conv_rhs => rw [← List.take_append_drop b l]
  rw [List.drop_append_eq_append_drop]
  have hz : a - (l.take b).length = 0 := by
    simp only [List.length_take]
    omega
  rw [hz, List.drop_zero]

theorem npSplitGo_flatten (l : List α) :
    ∀ (cuts : List Int) (prev : Int), 0 ≤ prev → prev ≤ (l.length : Int) →
    List.Chain (fun a b : Int => a ≤ b) prev cuts →
    (∀ c ∈ cuts, c ≤ (l.length : Int)) →
    (npSplitGo l prev cuts).flatten = l.drop prev.toNat := by
  intro cuts
  induction cuts with
  | nil =>
    intro prev h0 hn _ _
    have hidx1 : pySliceIdx l.length (l.length : Int) = l.length := by
      simp [pySliceIdx]
    have hidx2 : pySliceIdx l.length prev = prev.toNat := by
      rw [pySliceIdx, if_neg (by omega)]
      have : prev.toNat ≤ l.length := Int.toNat_le.2 hn
      omega
    simp [npSplitGo, pySlice, hidx1, hidx2]
  | cons c cs ih =>
    intro prev h0 hn hchain hbound
    have hpc : prev ≤ c := (List.chain_cons.1 hchain).1
    have hchain2 : List.Chain (fun a b : Int => a ≤ b) c cs := (List.chain_cons.1 hchain).2
    have hc0 : 0 ≤ c := le_trans h0 hpc
    have hcn : c ≤ (l.length : Int) := hbound c (List.mem_cons_self c cs)
    have hbound2 : ∀ x ∈ cs, x ≤ (l.length : Int) := fun x hx =>
      hbound x (List.mem_cons_of_mem c hx)
    have hidxp : pySliceIdx l.length prev = prev.toNat := by
      rw [pySliceIdx, if_neg (by omega)]
      have : prev.toNat ≤ l.length := Int.toNat_le.2 hn
      omega
    have hidxc : pySliceIdx l.length c = c.toNat := by
      rw [pySliceIdx, if_neg (by omega)]
      have : c.toNat ≤ l.length := Int.toNat_le.2 hcn
      omega
    have hrec := ih c hc0 hcn hchain2 hbound2
    simp only [npSplitGo, List.flatten_cons, hrec, pySlice, hidxp, hidxc]
    exact drop_take_append_drop l prev.toNat c.toNat
      (Int.toNat_le_toNat hpc) (Int.toNat_le.2 hn)

theorem chain_cumsumFrom (l : List Int) :
    ∀ acc, (∀ x ∈ l, 0 ≤ x) →
    List.Chain (fun a b : Int => a ≤ b) acc (cumsumFrom acc l) := by
  induction l with
  | nil => intro acc _; exact List.Chain.nil
  | cons x xs ih =>
    intro acc hnn
    rw [cumsumFrom]
    exact List.Chain.cons
      (by have := hnn x (List.mem_cons_self x xs); omega)
      (ih (acc + x) (fun y hy => hnn y (List.mem_cons_of_mem x hy)))

theorem cumsumFrom_le (l : List Int) :
    ∀ acc, (∀ x ∈ l, 0 ≤ x) → ∀ c ∈ cumsumFrom acc l, c ≤ acc + l.sum := by
  induction l with
  | nil => intro acc _ c hc; simp [cumsumFrom] at hc
  | cons x xs ih =>
    intro acc hnn c hc
    rw [cumsumFrom, List.mem_cons] at hc
    have hsum : 0 ≤ xs.sum :=
      List.sum_nonneg (fun y hy => hnn y (List.mem_cons_of_mem x hy))
    rcases hc with rfl | hc
    · simp only [List.sum_cons]
      omega
    · have := ih (acc + x) (fun y hy => hnn y (List.mem_cons_of_mem x hy)) c hc
      simp only [List.sum_cons]
      omega

theorem truncQ_nonneg {q : ℚ} (h : 0 ≤ q) : 0 ≤ truncQ q := by
  rw [truncQ, if_pos h]
  exact Int.le_floor.2 (by simpa using h)

theorem truncQ_cast_le {q : ℚ} (h : 0 ≤ q) : ((truncQ q : Int) : ℚ) ≤ q := by
  rw [truncQ, if_pos h]
  exact Int.floor_le q

theorem sizes_sum_cast_le (n : Nat) :
    ∀ (ratios2 : List ℚ), (∀ q ∈ ratios2, 0 ≤ q) →
    (((ratios2.map (fun q => truncQ (q * (n : ℚ)))).sum : Int) : ℚ) ≤ ratios2.sum * (n : ℚ) := by
  intro ratios2
  induction ratios2 with
  | nil => intro _; simp
  | cons q qs ih =>
    intro hnn
    have hq : 0 ≤ q := hnn q (List.mem_cons_self q qs)
    have hqn : 0 ≤ q * (n : ℚ) := mul_nonneg hq (by positivity)
    have h1 : ((truncQ (q * (n : ℚ)) : Int) : ℚ) ≤ q * (n : ℚ) := truncQ_cast_le hqn
    have h2 := ih (fun y hy => hnn y (List.mem_cons_of_mem q hy))
    simp only [List.map_cons, List.sum_cons]
    push_cast
    push_cast at h2
    nlinarith [h1, h2]

theorem sizes_sum_le (n : Nat) (ratios2 : List ℚ) (hnn : ∀ q ∈ ratios2, 0 ≤ q)
    (hsum : ratios2.sum ≤ 1) :
    (ratios2.map (fun q => truncQ (q * (n : ℚ)))).sum ≤ (n : Int) := by
  have h1 := sizes_sum_cast_le n ratios2 hnn
  have h2 : ratios2.sum * (n : ℚ) ≤ (n : ℚ) := by
    have hn0 : (0 : ℚ) ≤ (n : ℚ) := by positivity
    nlinarith
  have : (((ratios2.map (fun q => truncQ (q * (n : ℚ)))).sum : Int) : ℚ) ≤ ((n : Int) : ℚ) := by
    push_cast
    push_cast at h1
    linarith
  exact_mod_cast this

theorem npSplitGo_cons_shape (l : List α) (prev : Int) (cuts : List Int) :
    npSplitGo l prev cuts =
      (npSplitGo l prev cuts).headD [] :: (npSplitGo l prev cuts).tail := by
  cases cuts <;> rfl

theorem splitBody_coverage (tf : TriplesFactory) (ratios2 : List ℚ) (idx : List Nat)
    (rng1 : Rng) (rand : Bool) :
    ∀ g ∈ (tf.splitBody ratios2 idx rng1 rand).1,
      (∀ e ∈ entIds g.mapped_triples,
        e ∈ entIds (tfHeadD (tf.splitBody ratios2 idx rng1 rand).1).mapped_triples) ∧
      (∀ e ∈ relIds g.mapped_triples,
        e ∈ relIds (tfHeadD (tf.splitBody ratios2 idx rng1 rand).1).mapped_triples) := by
  intro g hg
  simp only [TriplesFactory.splitBody] at hg ⊢
  set permuted := idx.map (fun i => tf.mapped_triples.getD i default) with hperm
  set cuts := cumsum (ratios2.map (fun q =>
    truncQ (q * (tf.mapped_triples.length : ℚ)))) with hcuts
  rw [npSplit, npSplitGo_cons_shape permuted 0 cuts, tf_cleanup_all_cons] at hg ⊢
  obtain ⟨g1, g2, g3⟩ := tfCleanupAllGo_spec rand
    (npSplitGo permuted 0 cuts).tail ((npSplitGo permuted 0 cuts).headD []) rng1
  simp only [List.map_cons, List.mem_cons, List.mem_map, tfHeadD, List.headD_cons] at hg ⊢
  rcases hg with rfl | ⟨gl, hgl, rfl⟩
  · exact ⟨fun e he => he, fun e he => he⟩
  · exact g2 gl hgl

theorem splitBody_perm (tf : TriplesFactory) (ratios2 : List ℚ) (idx : List Nat)
    (rng1 : Rng) (rand : Bool)
    (hidx : List.Perm idx (List.range tf.mapped_triples.length))
    (hnn : ∀ q ∈ ratios2, 0 ≤ q) (hsum : ratios2.sum ≤ 1) :
    List.Perm (((tf.splitBody ratios2 idx rng1 rand).1.map
      (fun g => g.mapped_triples)).flatten) tf.mapped_triples := by
  simp only [TriplesFactory.splitBody]
  set n := tf.mapped_triples.length with hn
  set sizes := ratios2.map (fun q => truncQ (q * (n : ℚ))) with hsizes
  set permuted := idx.map (fun i => tf.mapped_triples.getD i default) with hpermdef
  have hlenidx : idx.length = n := by
    have := hidx.length_eq
    simpa using this
  have hlenperm : permuted.length = n := by
    simp [hpermdef, hlenidx]
  have hsz_nonneg : ∀ x ∈ sizes, 0 ≤ x := by
    intro x hx
    rw [hsizes] at hx
    rcases List.mem_map.1 hx with ⟨q, hq, rfl⟩
    exact truncQ_nonneg (mul_nonneg (hnn q hq) (by positivity))
  have hchain : List.Chain (fun a b : Int => a ≤ b) 0 (cumsum sizes) :=
    chain_cumsumFrom sizes 0 hsz_nonneg
  have hbound : ∀ c ∈ cumsum sizes, c ≤ (permuted.length : Int) := by
    intro c hc
    have h1 := cumsumFrom_le sizes 0 hsz_nonneg c hc
    have h2 := sizes_sum_le n ratios2 hnn hsum
    rw [hlenperm]
    rw [← hsizes] at h2
    omega
  have hflat : (npSplitGo permuted 0 (cumsum sizes)).flatten = permuted := by
    have := npSplitGo_flatten permuted (cumsum sizes) 0 le_rfl
      (by positivity) hchain hbound
    simpa using this
  have hpermed : List.Perm permuted tf.mapped_triples := by
    rw [hpermdef]
    have h1 : List.Perm (idx.map (fun i => tf.mapped_triples.getD i default))
        ((List.range n).map (fun i => tf.mapped_triples.getD i default)) :=
      hidx.map _
    have h2 : (List.range n).map (fun i => tf.mapped_triples.getD i default) =
        tf.mapped_triples := by
      rw [hn]
      exact map_getD_range tf.mapped_triples
    rw [h2] at h1
    exact h1
  rw [npSplit, npSplitGo_cons_shape permuted 0 (cumsum sizes), tf_cleanup_all_cons]
  obtain ⟨g1, g2, g3⟩ := tfCleanupAllGo_spec rand
    ((npSplitGo permuted 0 (cumsum sizes)).tail)
    ((npSplitGo permuted 0 (cumsum sizes)).headD []) rng1
  simp only [List.map_cons, List.flatten_cons]
  rw [List.map_map]
  have hcomp : ((fun g => TriplesFactory.mapped_triples g) ∘
      (fun gl => TriplesFactory.mk tf.entity_to_id tf.relation_to_id gl
        tf.relation_to_inverse)) = id := rfl
  rw [hcomp, List.map_id]
  refine g3.trans ?_
  have : (npSplitGo permuted 0 (cumsum sizes)).headD [] ++
      ((npSplitGo permuted 0 (cumsum sizes)).tail).flatten =
      (npSplitGo permuted 0 (cumsum sizes)).flatten := by
    conv_rhs => rw [npSplitGo_cons_shape permuted 0 (cumsum sizes)]
    simp [List.flatten_cons]
  rw [this, hflat]
  exact hpermed

theorem split_eq_of_sum_eq_one (tf : TriplesFactory) (ratios : List ℚ) (rng : Rng)
    (rand : Bool) (h1 : ratios.sum = 1) :
    tf.split ratios rng rand = .ok (tf.splitBody ratios.dropLast
      (rng.shuffleList (List.range tf.mapped_triples.length)).1
      (rng.shuffleList (List.range tf.mapped_triples.length)).2 rand) := by
  simp only [TriplesFactory.split, if_pos h1]

theorem split_eq_of_sum_lt_one (tf : TriplesFactory) (ratios : List ℚ) (rng : Rng)
    (rand : Bool) (h1 : ratios.sum ≠ 1) (h2 : ¬1 < ratios.sum) :
    tf.split ratios rng rand = .ok (tf.splitBody ratios
      (rng.shuffleList (List.range tf.mapped_triples.length)).1
      (rng.shuffleList (List.range tf.mapped_triples.length)).2 rand) := by
  simp only [TriplesFactory.split, if_neg h1, if_neg h2]

theorem split_eq_of_sum_gt_one (tf : TriplesFactory) (ratios : List ℚ) (rng : Rng)
    (rand : Bool) (h : 1 < ratios.sum) :
    tf.split ratios rng rand = .error (errRatios,
      (rng.shuffleList (List.range tf.mapped_triples.length)).2) := by
  have h1 : ratios.sum ≠ 1 := by intro hc; rw [hc] at h; exact absurd h (by norm_num)
  simp only [TriplesFactory.split, if_neg h1, if_pos h]

/-- Claim C1: for every TriplesFactory and every ratio list with sum at
most one, after split (under either cleanup mode, any random state)
every entity id and every relation id that appears in any returned
partition also appears in partition 0. -/
theorem claim_C1_split_coverage
    (tf : TriplesFactory) (ratios : List ℚ) (rng : Rng) (randomize : Bool)
    (g0 : TriplesFactory) (gs : List TriplesFactory) (rng2 : Rng)
    (hsum : ratios.sum ≤ 1)
    (hsplit : tf.split ratios rng randomize = .ok (g0 :: gs, rng2)) :
    ∀ g ∈ g0 :: gs,
      (∀ e ∈ entIds g.mapped_triples, e ∈ entIds g0.mapped_triples) ∧
      (∀ e ∈ relIds g.mapped_triples, e ∈ relIds g0.mapped_triples) := by
  by_cases h1 : ratios.sum = 1
  · rw [split_eq_of_sum_eq_one tf ratios rng randomize h1] at hsplit
    have hpair := Except.ok.inj hsplit
    have hbody : (tf.splitBody ratios.dropLast
        (rng.shuffleList (List.range tf.mapped_triples.length)).1
        (rng.shuffleList (List.range tf.mapped_triples.length)).2 randomize).1 =
        g0 :: gs := congrArg Prod.fst hpair
    have hcov := splitBody_coverage tf ratios.dropLast
      (rng.shuffleList (List.range tf.mapped_triples.length)).1
      (rng.shuffleList (List.range tf.mapped_triples.length)).2 randomize
    rw [hbody] at hcov
    simpa [tfHeadD] using hcov
  · have h2 : ¬1 < ratios.sum := by
      intro hc
      exact absurd hsum (by linarith)
    rw [split_eq_of_sum_lt_one tf ratios rng randomize h1 h2] at hsplit
    have hpair := Except.ok.inj hsplit
    have hbody : (tf.splitBody ratios
        (rng.shuffleList (List.range tf.mapped_triples.length)).1
        (rng.shuffleList (List.range tf.mapped_triples.length)).2 randomize).1 =
        g0 :: gs := congrArg Prod.fst hpair
    have hcov := splitBody_coverage tf ratios
      (rng.shuffleList (List.range tf.mapped_triples.length)).1
      (rng.shuffleList (List.range tf.mapped_triples.length)).2 randomize
    rw [hbody] at hcov
    simpa [tfHeadD] using hcov

theorem cons_headD_tail {α : Type} {l : List α} (d : α) (h : l ≠ []) :
    l = l.headD d :: l.tail := by
  cases l with
  | nil => exact absurd rfl h
  | cons a as => rfl

theorem split_shape_of_groups_cons (r : Except (String × Rng) (List TriplesFactory × Rng))
    (h : splitGroupsD r ≠ []) :
    r = .ok (tfHeadD (splitGroupsD r) :: (splitGroupsD r).tail, splitRngD r) := by
  cases r with
  | error p => exact absurd rfl h
  | ok p =>
    cases p with
    | mk gs rng =>
      cases gs with
      | nil => exact absurd rfl h
      | cons a as => rfl

/-- Claim C1 witness: a concrete randomized-mode split of a five-row
factory with ratios summing to one, checked to satisfy coverage. -/
theorem claim_C1_split_coverage_witness :
    (([(17 : ℚ)/50, 33/100, 33/100]).sum ≤ 1) ∧
    (∀ g ∈ c1gs,
      (∀ e ∈ entIds g.mapped_triples, e ∈ entIds c1g0.mapped_triples) ∧
      (∀ e ∈ relIds g.mapped_triples, e ∈ relIds c1g0.mapped_triples)) := by
  have hne : c1gs ≠ [] := by with_unfolding_all decide
  have hshape := split_shape_of_groups_cons
    (tf5.split [17/50, 33/100, 33/100] (Rng.ofSeed 5) true) hne
  have hcov := claim_C1_split_coverage tf5 [17/50, 33/100, 33/100] (Rng.ofSeed 5) true
    c1g0 c1gs.tail
    (splitRngD (tf5.split [17/50, 33/100, 33/100] (Rng.ofSeed 5) true))
    (by with_unfolding_all decide) hshape
  refine ⟨by with_unfolding_all decide, ?_⟩
  rw [cons_headD_tail (tfHeadD []) hne]
  exact hcov

/-- Claim C2 (amended): for every ratio list of NONNEGATIVE ratios with
sum at most one, the partitions returned by split carry exactly the
original triples (their concatenation is a permutation of the factory
rows), so their sizes sum to the factory total.  The original claim,
quantified over arbitrary ratio lists with sum at most one, is false:
a negative ratio makes the numpy cut points non-monotone and slicing
then duplicates rows (see the counterexample). -/
theorem claim_C2_split_sizes_amended
    (tf : TriplesFactory) (ratios : List ℚ) (rng : Rng) (randomize : Bool)
    (gs : List TriplesFactory) (rng2 : Rng)
    (hnn : ∀ q ∈ ratios, 0 ≤ q) (hsum : ratios.sum ≤ 1)
    (hsplit : tf.split ratios rng randomize = .ok (gs, rng2)) :
    List.Perm ((gs.map (fun g => g.mapped_triples)).flatten) tf.mapped_triples ∧
    (gs.map (fun g => g.mapped_triples.length)).sum = tf.mapped_triples.length := by
  have hidx := shuffleList_perm rng (List.range tf.mapped_triples.length)
  have hperm : List.Perm ((gs.map (fun g => g.mapped_triples)).flatten)
      tf.mapped_triples := by
    by_cases h1 : ratios.sum = 1
    · rw [split_eq_of_sum_eq_one tf ratios rng randomize h1] at hsplit
      have hpair := Except.ok.inj hsplit
      have hbody : (tf.splitBody ratios.dropLast
          (rng.shuffleList (List.range tf.mapped_triples.length)).1
          (rng.shuffleList (List.range tf.mapped_triples.length)).2 randomize).1 = gs :=
        congrArg Prod.fst hpair
      have hne : ratios ≠ [] := by
        intro hc
        rw [hc] at h1
        simp at h1
      have hnn2 : ∀ q ∈ ratios.dropLast, 0 ≤ q := fun q hq =>
        hnn q ((List.dropLast_sublist ratios).mem hq)
      have hsum2 : ratios.dropLast.sum ≤ 1 := by
        have hsplit2 : ratios.dropLast ++ [ratios.getLast hne] = ratios :=
          List.dropLast_concat_getLast hne
        have hlast : 0 ≤ ratios.getLast hne := hnn _ (List.getLast_mem hne)
        have : ratios.dropLast.sum + ratios.getLast hne = ratios.sum := by
          conv_rhs => rw [← hsplit2]
          simp
        linarith
      have := splitBody_perm tf ratios.dropLast
        (rng.shuffleList (List.range tf.mapped_triples.length)).1
        (rng.shuffleList (List.range tf.mapped_triples.length)).2 randomize
        hidx hnn2 hsum2
      rw [hbody] at this
      exact this
    · have h2 : ¬1 < ratios.sum := fun hc => absurd hsum (by linarith)
      rw [split_eq_of_sum_lt_one tf ratios rng randomize h1 h2] at hsplit
      have hpair := Except.ok.inj hsplit
      have hbody : (tf.splitBody ratios
          (rng.shuffleList (List.range tf.mapped_triples.length)).1
          (rng.shuffleList (List.range tf.mapped_triples.length)).2 randomize).1 = gs :=
        congrArg Prod.fst hpair
      have := splitBody_perm tf ratios
        (rng.shuffleList (List.range tf.mapped_triples.length)).1
        (rng.shuffleList (List.range tf.mapped_triples.length)).2 randomize
        hidx hnn hsum
      rw [hbody] at this
      exact this
  refine ⟨hperm, ?_⟩
  have hlen := hperm.length_eq
  rw [List.length_flatten, List.map_map] at hlen
  exact hlen

/-- Claim C2 counterexample: the ratio list with a negative entry
[4/5, -1/2] sums to 3/10, at most one, yet splitting the five-row
factory `tf5` returns partitions whose sizes sum to 7, not 5: the
non-monotone numpy cut points duplicate rows. -/
theorem claim_C2_split_sizes_counterexample :
    (([(4 : ℚ)/5, -1/2]).sum ≤ 1) ∧
    tf5.mapped_triples.length = 5 ∧
    splitSizesSum (tf5.split [4/5, -1/2] (Rng.ofSeed 1) false) = some 7 := by
  refine ⟨by with_unfolding_all decide, by decide, by with_unfolding_all decide⟩

/-- Claim C2 witness: a concrete nonnegative-ratio split of `tf5`
satisfying the amended property. -/
theorem claim_C2_split_sizes_witness :
    List.Perm ((c2gs.map (fun g => g.mapped_triples)).flatten) tf5.mapped_triples ∧
    (c2gs.map (fun g => g.mapped_triples.length)).sum = tf5.mapped_triples.length := by
  have hne : c2gs ≠ [] := by with_unfolding_all decide
  have hshape := split_shape_of_groups_cons (tf5.split [1/2] (Rng.ofSeed 9) false) hne
  have := claim_C2_split_sizes_amended tf5 [1/2] (Rng.ofSeed 9) false
    (tfHeadD (splitGroupsD (tf5.split [1/2] (Rng.ofSeed 9) false)) ::
      (splitGroupsD (tf5.split [1/2] (Rng.ofSeed 9) false)).tail)
    (splitRngD (tf5.split [1/2] (Rng.ofSeed 9) false))
    (by
      intro q hq
      have : q = (1 : ℚ)/2 := by simpa using hq
      rw [this]
      with_unfolding_all decide)
    (by with_unfolding_all decide) hshape
  rw [cons_headD_tail (tfHeadD []) hne]
  exact this

/-- Claim C3 (amended): for every ratio list whose sum exceeds one,
split raises the validation error, but only AFTER the random
permutation of triple indices has been computed: the error state is
exactly the post-shuffle random state, which has consumed one draw per
triple.  The original claim, that the error precedes any randomness
consumption, is false on the code, where the shuffle is executed before
the ratio check. -/
theorem claim_C3_ratio_error_amended
    (tf : TriplesFactory) (ratios : List ℚ) (rng : Rng) (randomize : Bool)
    (h : 1 < ratios.sum) :
    tf.split ratios rng randomize = .error (errRatios,
      (rng.shuffleList (List.range tf.mapped_triples.length)).2) ∧
    (rng.shuffleList (List.range tf.mapped_triples.length)).2.uses =
      rng.uses + tf.mapped_triples.length := by
  refine ⟨split_eq_of_sum_gt_one tf ratios rng randomize h, ?_⟩
  have := shuffleList_uses rng (List.range tf.mapped_triples.length)
  simpa using this

/-- Claim C3 counterexample: with ratios [3/5, 1/2] (sum 11/10) on the
five-row factory, split does raise the validation error, but the error
state records five consumed random draws, not zero: the permutation was
computed before validation. -/
theorem claim_C3_ratio_error_counterexample :
    (1 < ([(3 : ℚ)/5, 1/2]).sum) ∧
    splitErrUses (tf5.split [3/5, 1/2] (Rng.ofSeed 7) false) = some 5 ∧
    (Rng.ofSeed 7).uses = 0 := by
  refine ⟨by with_unfolding_all decide, by with_unfolding_all decide, rfl⟩

/-- Claim C3 witness: the amended property at a concrete factory, ratio
list and seed. -/
theorem claim_C3_ratio_error_witness :
    tf5.split [3/5, 1/2] (Rng.ofSeed 7) false = .error (errRatios,
      ((Rng.ofSeed 7).shuffleList (List.range tf5.mapped_triples.length)).2) ∧
    ((Rng.ofSeed 7).shuffleList (List.range tf5.mapped_triples.length)).2.uses =
      (Rng.ofSeed 7).uses + tf5.mapped_triples.length :=
  claim_C3_ratio_error_amended tf5 [3/5, 1/2] (Rng.ofSeed 7) false
    (by with_unfolding_all decide)

/-- Claim C4: split is a deterministic function of the factory, the
ratio list, the seed and the cleanup mode: two runs with identical seed
and identical cleanup mode produce identical partition lists, with the
same triples in each group in the same order. -/
theorem claim_C4_split_deterministic
    (tf : TriplesFactory) (ratios : List ℚ) (seed : Nat) (randomize : Bool)
    (out1 out2 : Except (String × Rng) (List TriplesFactory × Rng))
    (h1 : tf.split ratios (Rng.ofSeed seed) randomize = out1)
    (h2 : tf.split ratios (Rng.ofSeed seed) randomize = out2) :
    out1 = out2 := by
  rw [← h1, ← h2]

/-- Claim C4 witness: two identically seeded runs on the concrete
factory agree. -/
theorem claim_C4_split_deterministic_witness :
    tf5.split [1/2] (Rng.ofSeed 42) false = tf5.split [1/2] (Rng.ofSeed 42) false :=
  claim_C4_split_deterministic tf5 [1/2] 42 false _ _ rfl rfl

/-- Claim C9: the randomized cleanup loop always terminates because
every iteration with a non-empty must-move mask removes exactly one row
from testing, and when `tf_cleanup_randomized` (a total function whose
fuel equals the testing size) returns, the recomputed must-move mask is
empty. -/
theorem claim_C9_randomized_cleanup_terminates :
    (∀ (training testing : List Triple) (rng : Rng),
        (prepare_cleanup training testing).any (fun b => b) = true →
        (cleanupRandStep training testing rng).2.1.length + 1 = testing.length) ∧
    (∀ (training testing : List Triple) (rng : Rng),
        (prepare_cleanup (tf_cleanup_randomized training testing rng).1
          (tf_cleanup_randomized training testing rng).2.1).any (fun b => b) = false) := by
  constructor
  · intro training testing rng h
    exact (cleanupRandStep_spec rng h).1
  · intro training testing rng
    exact (tf_cleanup_randomized_spec training testing rng).1

/-- Claim C9 witness: one concrete randomized cleanup starting from an
empty training set. -/
theorem claim_C9_randomized_cleanup_terminates_witness :
    ((prepare_cleanup [] [⟨0, 0, 1⟩]).any (fun b => b) = true) ∧
    (cleanupRandStep [] [⟨0, 0, 1⟩] (Rng.ofSeed 3)).2.1.length + 1 =
      ([⟨0, 0, 1⟩] : List Triple).length ∧
    (prepare_cleanup (tf_cleanup_randomized [] [⟨0, 0, 1⟩] (Rng.ofSeed 3)).1
      (tf_cleanup_randomized [] [⟨0, 0, 1⟩] (Rng.ofSeed 3)).2.1).any (fun b => b) = false :=
  ⟨by decide,
   claim_C9_randomized_cleanup_terminates.1 [] [⟨0, 0, 1⟩] (Rng.ofSeed 3) (by decide),
   claim_C9_randomized_cleanup_terminates.2 [] [⟨0, 0, 1⟩] (Rng.ofSeed 3)⟩

theorem splitBody_shares (tf : TriplesFactory) (ratios2 : List ℚ) (idx : List Nat)
    (rng1 : Rng) (rand : Bool) :
    ∀ g ∈ (tf.splitBody ratios2 idx rng1 rand).1,
      g.entity_to_id = tf.entity_to_id ∧ g.relation_to_id = tf.relation_to_id := by
  intro g hg
  simp only [TriplesFactory.splitBody, List.mem_map] at hg
  rcases hg with ⟨gl, _, rfl⟩
  exact ⟨rfl, rfl⟩

/-- Claim C6 (amended): split and relation filtering return new
factories sharing the parent's entity and relation mappings unchanged,
and a restriction with at least one filter returns a fresh factory
sharing them as well; but a restriction with NO entity and NO relation
filter returns the original factory object itself (the source's
`return self` path), not a new object.  No transform mutates the
original, which in this embedding is inherent to all functions being
pure.  The original claim, that even the no-filter restrict call
returns a distinct new object, is false. -/
theorem claim_C6_transforms_fresh_and_share_amended :
    (∀ (tf : TriplesFactory) (ratios : List ℚ) (rng : Rng) (randomize : Bool)
       (gs : List TriplesFactory) (rng2 : Rng),
       tf.split ratios rng randomize = .ok (gs, rng2) →
       ∀ g ∈ gs, g.entity_to_id = tf.entity_to_id ∧
         g.relation_to_id = tf.relation_to_id) ∧
    (∀ (tf : TriplesFactory) (relations : List String) (f : TriplesFactory),
       tf.new_with_relations relations = .ok f →
       f.entity_to_id = tf.entity_to_id ∧ f.relation_to_id = tf.relation_to_id) ∧
    (∀ (tf : TriplesFactory) (entities relations : Option (List String))
       (f : TriplesFactory),
       tf.new_with_restriction entities relations = .fresh f →
       f.entity_to_id = tf.entity_to_id ∧ f.relation_to_id = tf.relation_to_id) ∧
    (∀ tf : TriplesFactory, tf.new_with_restriction none none = RestrictResult.same) := by
  refine ⟨?_, ?_, ?_, ?_⟩
  · intro tf ratios rng randomize gs rng2 hsplit g hg
    by_cases h1 : ratios.sum = 1
    · rw [split_eq_of_sum_eq_one tf ratios rng randomize h1] at hsplit
      have hbody := congrArg Prod.fst (Except.ok.inj hsplit)
      simp only at hbody
      rw [← hbody] at hg
      exact splitBody_shares tf _ _ _ _ g hg
    · by_cases h2 : 1 < ratios.sum
      · rw [split_eq_of_sum_gt_one tf ratios rng randomize h2] at hsplit
        exact absurd hsplit (by simp)
      · rw [split_eq_of_sum_lt_one tf ratios rng randomize h1 h2] at hsplit
        have hbody := congrArg Prod.fst (Except.ok.inj hsplit)
        simp only at hbody
        rw [← hbody] at hg
        exact splitBody_shares tf _ _ _ _ g hg
  · intro tf relations f h
    unfold TriplesFactory.new_with_relations at h
    split at h
    · cases h
    · cases h
      exact ⟨rfl, rfl⟩
  · intro tf entities relations f h
    rcases htf : tf.relation_to_inverse with _ | r2inv <;>
      rcases entities with _ | es <;> rcases relations with _ | rs <;>
        simp only [TriplesFactory.new_with_restriction, htf] at h <;>
        repeat' split at h
    all_goals (cases h <;> exact ⟨rfl, rfl⟩)
  · intro tf
    rcases tf with ⟨e2i, r2i, mt, inv⟩
    cases inv <;> rfl

/-- Claim C6 counterexample: the restrict call with no entity and no
relation filter does not return a new factory object; the source takes
the `return self` path, recorded here as the `same` outcome. -/
theorem claim_C6_transforms_fresh_counterexample :
    tf5.new_with_restriction none none = RestrictResult.same := by
  decide

/-- Claim C6 witness: concrete sharing facts for a split partition, a
relation filter, a fresh restriction, and the no-filter restrict. -/
theorem claim_C6_transforms_fresh_and_share_witness :
    ((tfHeadD c6gs).entity_to_id = tf5.entity_to_id ∧
      (tfHeadD c6gs).relation_to_id = tf5.relation_to_id) ∧
    ((exceptTFD tf5 (tf5.new_with_relations [])).entity_to_id = tf5.entity_to_id ∧
      (exceptTFD tf5 (tf5.new_with_relations [])).relation_to_id = tf5.relation_to_id) ∧
    (c6restr.entity_to_id = tf5.entity_to_id ∧
      c6restr.relation_to_id = tf5.relation_to_id) ∧
    tf5.new_with_restriction none none = RestrictResult.same := by
  have hne : c6gs ≠ [] := by with_unfolding_all decide
  have hshape := split_shape_of_groups_cons (tf5.split [1/2] (Rng.ofSeed 2) false) hne
  refine ⟨?_, ?_, ?_, ?_⟩
  · exact claim_C6_transforms_fresh_and_share_amended.1 tf5 [1/2] (Rng.ofSeed 2) false
      (tfHeadD c6gs :: c6gs.tail) (splitRngD (tf5.split [1/2] (Rng.ofSeed 2) false))
      hshape (tfHeadD c6gs) (List.mem_cons_self _ _)
  · exact claim_C6_transforms_fresh_and_share_amended.2.1 tf5 []
      (exceptTFD tf5 (tf5.new_with_relations [])) (by with_unfolding_all decide)
  · exact claim_C6_transforms_fresh_and_share_amended.2.2.1 tf5 (some []) none c6restr
      (by with_unfolding_all decide)
  · exact claim_C6_transforms_fresh_and_share_amended.2.2.2 tf5

theorem tripleLt_irrefl (a : Triple) : tripleLt a a = false := by
  simp [tripleLt]

theorem tripleLt_asymm {a b : Triple} (h1 : tripleLt a b = true)
    (h2 : tripleLt b a = true) : False := by
  simp only [tripleLt, Bool.or_eq_true, Bool.and_eq_true, decide_eq_true_eq,
    beq_iff_eq] at h1 h2
  omega

theorem tripleLt_trans {a b c : Triple} (h1 : tripleLt a b = true)
    (h2 : tripleLt b c = true) : tripleLt a c = true := by
  simp only [tripleLt, Bool.or_eq_true, Bool.and_eq_true, decide_eq_true_eq,
    beq_iff_eq] at h1 h2 ⊢
  omega

theorem tripleLt_connex {a b : Triple} (h1 : tripleLt a b = false)
    (h2 : tripleLt b a = false) : a = b := by
  cases a with
  | mk ah ar at2 =>
    cases b with
    | mk bh br bt =>
      simp only [tripleLt, Bool.or_eq_false_iff, Bool.and_eq_false_iff,
        decide_eq_false_iff_not, beq_eq_false_iff_ne, ne_eq, Triple.mk.injEq] at h1 h2 ⊢
      omega


theorem mem_insertBy_triple {x z : Triple} :
    ∀ {l : List Triple}, z ∈ insertBy tripleLt x l ↔ z = x ∨ z ∈ l := by
  intro l
  induction l with
  | nil => simp [insertBy]
  | cons y ys ih =>
    rw [insertBy]
    by_cases h1 : tripleLt x y = true
    · rw [if_pos h1]
      simp [List.mem_cons]
    · rw [if_neg h1]
      by_cases h2 : x = y
      · rw [if_pos h2]
        subst h2
        simp only [List.mem_cons]
        constructor
        · exact fun h => Or.inr h
        · rintro (rfl | h)
          · exact Or.inl rfl
          · exact h
      · rw [if_neg h2]
        simp only [List.mem_cons, ih]
        tauto

theorem pairwise_insertBy {x : Triple} :
    ∀ {l : List Triple}, List.Pairwise TLtP l →
      List.Pairwise TLtP (insertBy tripleLt x l) := by
  intro l
  induction l with
  | nil => intro _; simp [insertBy, List.pairwise_singleton]
  | cons y ys ih =>
    intro hp
    rw [List.pairwise_cons] at hp
    obtain ⟨hy, hys⟩ := hp
    rw [insertBy]
    by_cases h1 : tripleLt x y = true
    · rw [if_pos h1]
      refine List.Pairwise.cons ?_ (List.Pairwise.cons hy hys)
      intro z hz
      rcases List.mem_cons.1 hz with rfl | hz2
      · exact h1
      · exact tripleLt_trans h1 (hy z hz2)
    · rw [if_neg h1]
      by_cases h2 : x = y
      · rw [if_pos h2]
        exact List.Pairwise.cons hy hys
      · rw [if_neg h2]
        have hyx : TLtP y x := by
          have h1f : tripleLt x y = false := by
            simpa using h1
          by_cases h3 : tripleLt y x = true
          · exact h3
          · exact absurd (tripleLt_connex (by simpa using h3) h1f) (fun hc => h2 hc.symm)
        refine List.Pairwise.cons ?_ (ih hys)
        intro z hz
        rcases mem_insertBy_triple.1 hz with rfl | hz2
        · exact hyx
        · exact hy z hz2

theorem uniqueRows_pairwise (l : List Triple) : List.Pairwise TLtP (uniqueRows l) := by
  rw [uniqueRows, sortDedupBy]
  induction l with
  | nil => simp
  | cons a as ih => exact pairwise_insertBy ih

theorem mem_uniqueRows {z : Triple} : ∀ {l : List Triple}, z ∈ uniqueRows l ↔ z ∈ l := by
  intro l
  induction l with
  | nil => simp [uniqueRows, sortDedupBy]
  | cons a as ih =>
    rw [uniqueRows, sortDedupBy] at ih ⊢
    simp only [List.foldr_cons, mem_insertBy_triple, List.mem_cons, ih]

theorem uniqueRows_nodup (l : List Triple) : (uniqueRows l).Nodup :=
  (uniqueRows_pairwise l).imp (fun h => by
    intro hc
    subst hc
    exact absurd h (by simp [TLtP, tripleLt_irrefl]))

theorem uniqueRows_eq_of_mem_iff {l1 l2 : List Triple}
    (h : ∀ z, z ∈ l1 ↔ z ∈ l2) : uniqueRows l1 = uniqueRows l2 := by
  have hperm : List.Perm (uniqueRows l1) (uniqueRows l2) :=
    (List.perm_ext_iff_of_nodup (uniqueRows_nodup l1) (uniqueRows_nodup l2)).2
      (fun z => by rw [mem_uniqueRows, mem_uniqueRows]; exact h z)
  exact List.eq_of_perm_of_sorted hperm (uniqueRows_pairwise l1) (uniqueRows_pairwise l2)

/-- Claim C7: mapping label triples to ids drops and counts exactly the
rows referencing a label absent from the mappings (without raising),
deduplicates the surviving rows so no two identical id rows remain, and
returns the well-typed empty row list when no row is mappable. -/
theorem claim_C7_map_to_ids_drops_and_dedups
    (triples : List LTriple) (entity_to_id relation_to_id : List (String × Nat)) :
    (map_triples_elements_to_ids triples entity_to_id relation_to_id).2 =
      triples.countP (fun x => (rowMapped entity_to_id relation_to_id x).isNone) ∧
    (map_triples_elements_to_ids triples entity_to_id relation_to_id).1.Nodup ∧
    (∀ y, y ∈ (map_triples_elements_to_ids triples entity_to_id relation_to_id).1 ↔
      ∃ x ∈ triples, rowMapped entity_to_id relation_to_id x = some y) ∧
    ((∀ x ∈ triples, (rowMapped entity_to_id relation_to_id x).isNone) →
      (map_triples_elements_to_ids triples entity_to_id relation_to_id).1 = []) := by
  by_cases he : triples.isEmpty
  · have : triples = [] := by simpa [List.isEmpty_iff] using he
    subst this
    refine ⟨by simp [map_triples_elements_to_ids], by simp [map_triples_elements_to_ids], ?_, ?_⟩
    · intro y
      simp [map_triples_elements_to_ids]
    · intro _
      simp [map_triples_elements_to_ids]
  · have hred : map_triples_elements_to_ids triples entity_to_id relation_to_id =
        (uniqueRows (triples.filterMap (rowMapped entity_to_id relation_to_id)),
         triples.countP (fun x => (rowMapped entity_to_id relation_to_id x).isNone)) := by
      rw [map_triples_elements_to_ids, if_neg he]
    rw [hred]
    refine ⟨rfl, uniqueRows_nodup _, ?_, ?_⟩
    · intro y
      rw [mem_uniqueRows, List.mem_filterMap]
    · intro hall
      have : triples.filterMap (rowMapped entity_to_id relation_to_id) = [] := by
        rw [List.filterMap_eq_nil_iff]
        intro x hx
        have := hall x hx
        simpa [Option.isNone_iff_eq_none] using this
      rw [this]
      rfl

/-- Claim C7 witness: a concrete mapping call with one duplicated
mappable row and one unmappable row. -/
theorem claim_C7_map_to_ids_drops_and_dedups_witness :
    (map_triples_elements_to_ids
        [⟨"a", "r", "b"⟩, ⟨"a", "r", "b"⟩, ⟨"x", "r", "y"⟩]
        [("a", 0), ("b", 1)] [("r", 0)]).2 =
      ([⟨"a", "r", "b"⟩, ⟨"a", "r", "b"⟩, ⟨"x", "r", "y"⟩] : List LTriple).countP
        (fun x => (rowMapped [("a", 0), ("b", 1)] [("r", 0)] x).isNone) ∧
    (map_triples_elements_to_ids
        [⟨"a", "r", "b"⟩, ⟨"a", "r", "b"⟩, ⟨"x", "r", "y"⟩]
        [("a", 0), ("b", 1)] [("r", 0)]).1.Nodup ∧
    (∀ y, y ∈ (map_triples_elements_to_ids
        [⟨"a", "r", "b"⟩, ⟨"a", "r", "b"⟩, ⟨"x", "r", "y"⟩]
        [("a", 0), ("b", 1)] [("r", 0)]).1 ↔
      ∃ x ∈ ([⟨"a", "r", "b"⟩, ⟨"a", "r", "b"⟩, ⟨"x", "r", "y"⟩] : List LTriple),
        rowMapped [("a", 0), ("b", 1)] [("r", 0)] x = some y) ∧
    ((∀ x ∈ ([⟨"a", "r", "b"⟩, ⟨"a", "r", "b"⟩, ⟨"x", "r", "y"⟩] : List LTriple),
        (rowMapped [("a", 0), ("b", 1)] [("r", 0)] x).isNone) →
      (map_triples_elements_to_ids
        [⟨"a", "r", "b"⟩, ⟨"a", "r", "b"⟩, ⟨"x", "r", "y"⟩]
        [("a", 0), ("b", 1)] [("r", 0)]).1 = []) :=
  claim_C7_map_to_ids_drops_and_dedups
    [⟨"a", "r", "b"⟩, ⟨"a", "r", "b"⟩, ⟨"x", "r", "y"⟩]
    [("a", 0), ("b", 1)] [("r", 0)]

/-- Claim C10: the id rows produced by mapping label triples are sorted
strictly lexicographically by (head id, relation id, tail id), and the
output is independent of the order of the input label rows: mapping any
permutation of the rows with the same mappings yields an identical id
row list. -/
theorem claim_C10_mapped_sorted_order_independent
    (triples : List LTriple) (entity_to_id relation_to_id : List (String × Nat)) :
    List.Pairwise TLtP
      (map_triples_elements_to_ids triples entity_to_id relation_to_id).1 ∧
    (∀ triples2 : List LTriple, List.Perm triples triples2 →
      (map_triples_elements_to_ids triples2 entity_to_id relation_to_id).1 =
      (map_triples_elements_to_ids triples entity_to_id relation_to_id).1) := by
  constructor
  · by_cases he : triples.isEmpty
    · have : triples = [] := by simpa [List.isEmpty_iff] using he
      subst this
      simp [map_triples_elements_to_ids]
    · rw [map_triples_elements_to_ids, if_neg he]
      exact uniqueRows_pairwise _
  · intro triples2 hperm
    by_cases he : triples.isEmpty
    · have h0 : triples = [] := by simpa [List.isEmpty_iff] using he
      subst h0
      have h2 : triples2 = [] := hperm.symm.eq_nil
      subst h2
      rfl
    · have he2 : ¬triples2.isEmpty = true := by
        intro hc
        have : triples2 = [] := by simpa [List.isEmpty_iff] using hc
        subst this
        exact he (by simpa [List.isEmpty_iff] using hperm.eq_nil)
      rw [map_triples_elements_to_ids, if_neg he2, map_triples_elements_to_ids, if_neg he]
      show uniqueRows (triples2.filterMap (rowMapped entity_to_id relation_to_id)) =
        uniqueRows (triples.filterMap (rowMapped entity_to_id relation_to_id))
      exact uniqueRows_eq_of_mem_iff
        (fun z => (hperm.filterMap (rowMapped entity_to_id relation_to_id)).symm.mem_iff)

/-- Claim C10 witness: mapping a concrete row list and a permutation of
it, with the sortedness of the output. -/
theorem claim_C10_mapped_sorted_order_independent_witness :
    List.Pairwise TLtP
      (map_triples_elements_to_ids [⟨"b", "r", "a"⟩, ⟨"a", "r", "b"⟩]
        [("a", 0), ("b", 1)] [("r", 0)]).1 ∧
    (map_triples_elements_to_ids [⟨"a", "r", "b"⟩, ⟨"b", "r", "a"⟩]
        [("a", 0), ("b", 1)] [("r", 0)]).1 =
      (map_triples_elements_to_ids [⟨"b", "r", "a"⟩, ⟨"a", "r", "b"⟩]
        [("a", 0), ("b", 1)] [("r", 0)]).1 :=
  ⟨(claim_C10_mapped_sorted_order_independent [⟨"b", "r", "a"⟩, ⟨"a", "r", "b"⟩]
      [("a", 0), ("b", 1)] [("r", 0)]).1,
   (claim_C10_mapped_sorted_order_independent [⟨"b", "r", "a"⟩, ⟨"a", "r", "b"⟩]
      [("a", 0), ("b", 1)] [("r", 0)]).2
     [⟨"a", "r", "b"⟩, ⟨"b", "r", "a"⟩] (by decide)⟩

theorem lookup_of_mem_nodup {β : Type} {m : List (String × β)} {k : String} {v : β}
    (hnd : (m.map Prod.fst).Nodup) (hmem : (k, v) ∈ m) : m.lookup k = some v := by
  induction m with
  | nil => simp at hmem
  | cons p rest ih =>
    obtain ⟨k0, v0⟩ := p
    rw [List.map_cons, List.nodup_cons] at hnd
    rcases List.mem_cons.1 hmem with heq | hmem2
    · obtain ⟨rfl, rfl⟩ := Prod.mk.injEq .. ▸ heq
      exact List.lookup_cons_self
    · have hk : k ≠ k0 := by
        intro hc
        subst hc
        exact hnd.1 (List.mem_map.2 ⟨(k, v), hmem2, rfl⟩)
      rw [List.lookup_cons]
      have hbeq : (k == k0) = false := beq_eq_false_iff_ne.2 hk
      rw [hbeq]
      exact ih hnd.2 hmem2

theorem mem_of_lookup_eq_some {β : Type} {m : List (String × β)} {k : String} {v : β}
    (h : m.lookup k = some v) : (k, v) ∈ m := by
  rcases List.lookup_eq_some_iff.1 h with ⟨l1, l2, rfl, _⟩
  simp

theorem lookupAll_ok_of_forall {β : Type} {m : List (String × β)} :
    ∀ {ls : List String}, (∀ l ∈ ls, (m.lookup l).isSome) →
    lookupAll m ls = .ok (ls.filterMap (fun l => m.lookup l)) := by
  intro ls
  induction ls with
  | nil => intro _; rfl
  | cons l rest ih =>
    intro hall
    have h1 : (m.lookup l).isSome := hall l (List.mem_cons_self l rest)
    rcases hsome : m.lookup l with _ | v
    · rw [hsome] at h1
      simp at h1
    · rw [lookupAll, hsome, ih (fun y hy => hall y (List.mem_cons_of_mem l hy))]
      conv_rhs => rw [List.filterMap_cons, hsome]

theorem lookupAll_ok_forall_mem {β : Type} {m : List (String × β)} :
    ∀ {ls : List String} {vs : List β}, lookupAll m ls = .ok vs →
    ∀ v ∈ vs, ∃ k ∈ ls, m.lookup k = some v := by
  intro ls
  induction ls with
  | nil =>
    intro vs h v hv
    rw [lookupAll] at h
    obtain rfl : ([] : List β) = vs := Except.ok.inj h
    simp at hv
  | cons l rest ih =>
    intro vs h v hv
    rw [lookupAll] at h
    rcases hsome : m.lookup l with _ | w
    · rw [hsome] at h
      cases h
    · rw [hsome] at h
      rcases hrest : lookupAll m rest with e | ws
      · rw [hrest] at h
        cases h
      · rw [hrest] at h
        obtain rfl : w :: ws = vs := Except.ok.inj h
        rcases List.mem_cons.1 hv with rfl | hv2
        · exact ⟨l, List.mem_cons_self l rest, hsome⟩
        · rcases ih hrest v hv2 with ⟨k, hk1, hk2⟩
          exact ⟨k, List.mem_cons_of_mem l hk1, hk2⟩

theorem relationLabelsPresent_lookup_isSome {g : TriplesFactory}
    (hnd : (g.relation_to_id.map Prod.fst).Nodup) :
    ∀ lab ∈ g.relationLabelsPresent, (g.relation_to_id.lookup lab).isSome := by
  intro lab hlab
  rcases List.mem_filterMap.1 hlab with ⟨i, _, hlabel⟩
  rcases Option.map_eq_some'.1 hlabel with ⟨p0, hfind, hp0⟩
  have hp0mem : p0 ∈ g.relation_to_id := List.mem_of_find?_eq_some hfind
  have hp0val : p0.2 = i := by
    have := List.find?_some hfind
    simpa using this
  have hpair : (lab, i) ∈ g.relation_to_id := by
    have : p0 = (lab, i) := by
      rcases p0 with ⟨a, b⟩
      simp only at hp0 hp0val
      rw [hp0, hp0val]
    rw [← this]
    exact hp0mem
  rw [lookup_of_mem_nodup hnd hpair]
  rfl

theorem mem_labels_lookup_of_relation {g : TriplesFactory}
    (hnd : (g.relation_to_id.map Prod.fst).Nodup) {x : Triple}
    (hx : x ∈ g.mapped_triples)
    (hcov : ∃ p ∈ g.relation_to_id, p.2 = x.r) :
    x.r ∈ g.relationLabelsPresent.filterMap (fun l => g.relation_to_id.lookup l) := by
  rcases hcov with ⟨p, hpmem, hpval⟩
  have hfindSome : (g.relation_to_id.find? (fun q => q.2 == x.r)).isSome := by
    rw [List.find?_isSome]
    exact ⟨p, hpmem, by simp [hpval]⟩
  rcases hfind : g.relation_to_id.find? (fun q => q.2 == x.r) with _ | p0
  · rw [hfind] at hfindSome
    simp at hfindSome
  · have hp0mem : p0 ∈ g.relation_to_id := List.mem_of_find?_eq_some hfind
    have hp0val : p0.2 = x.r := by
      have := List.find?_some hfind
      simpa using this
    have hlabmem : p0.1 ∈ g.relationLabelsPresent := by
      rw [TriplesFactory.relationLabelsPresent]
      refine List.mem_filterMap.2 ⟨x.r, ?_, ?_⟩
      · rw [List.mem_dedup]
        exact List.mem_map.2 ⟨x, hx, rfl⟩
      · rw [TriplesFactory.relation_id_to_label, hfind]
        rfl
    have hpair : (p0.1, x.r) ∈ g.relation_to_id := by
      have : p0 = (p0.1, x.r) := by
        rcases p0 with ⟨a, b⟩
        simp only at hp0val ⊢
        rw [hp0val]
      rw [← this]
      exact hp0mem
    exact List.mem_filterMap.2 ⟨p0.1, hlabmem, lookup_of_mem_nodup hnd hpair⟩

theorem restriction_by_present_labels (g : TriplesFactory)
    (hinv : g.relation_to_inverse = none)
    (hnd : (g.relation_to_id.map Prod.fst).Nodup)
    (hcov : ∀ x ∈ g.mapped_triples, ∃ p ∈ g.relation_to_id, p.2 = x.r) :
    g.new_with_restriction none (some g.relationLabelsPresent) = .fresh g := by
  have hlookups := relationLabelsPresent_lookup_isSome hnd
  have hmaskok : g.get_mask_for_relations g.relationLabelsPresent false =
      .ok (g.mapped_triples.map (fun x =>
        (g.relationLabelsPresent.filterMap
          (fun l => g.relation_to_id.lookup l)).contains x.r)) := by
    rw [TriplesFactory.get_mask_for_relations, TriplesFactory.relations_to_ids,
      lookupAll_ok_of_forall hlookups]
    simp [Bool.xor_false]
  have hmaskall : ∀ x ∈ g.mapped_triples,
      (g.relationLabelsPresent.filterMap
        (fun l => g.relation_to_id.lookup l)).contains x.r = true := by
    intro x hx
    have := mem_labels_lookup_of_relation hnd hx (hcov x hx)
    simpa using this
  rcases g with ⟨e2i, r2i, mt, inv⟩
  obtain rfl : inv = none := hinv
  have hred : TriplesFactory.new_with_restriction ⟨e2i, r2i, mt, none⟩ none
      (some (TriplesFactory.relationLabelsPresent ⟨e2i, r2i, mt, none⟩)) =
      match TriplesFactory.get_mask_for_relations ⟨e2i, r2i, mt, none⟩
        (TriplesFactory.relationLabelsPresent ⟨e2i, r2i, mt, none⟩) false with
      | .error e => .err e
      | .ok mask => .fresh ⟨e2i, r2i, maskSelect mt mask, none⟩ := rfl
  rw [hred, hmaskok]
  show RestrictResult.fresh ⟨e2i, r2i,
      maskSelect mt (mt.map (fun x =>
        ((TriplesFactory.relationLabelsPresent ⟨e2i, r2i, mt, none⟩).filterMap
          (fun l => r2i.lookup l)).contains x.r)),
      none⟩ = .fresh ⟨e2i, r2i, mt, none⟩
  rw [maskSelect_map_self, List.filter_eq_self.2 hmaskall]

/-- Claim C5 (amended): for factories WITHOUT inverse relations (and a
duplicate-free relation mapping, as every real mapping is), restricting
by a relation set and then restricting the result by exactly the set of
relation labels present in it returns the identical factory, hence an
identical triple set.  For factories WITH inverse relations the claim
is false: the second restriction extends the label set through the
relation-to-inverse map, which has no entry for inverse labels that the
result contains, so the call raises KeyError instead of returning. -/
theorem claim_C5_restriction_idempotent_amended
    (tf : TriplesFactory) (R : List String) (f1 : TriplesFactory)
    (hinv : tf.relation_to_inverse = none)
    (hnd : (tf.relation_to_id.map Prod.fst).Nodup)
    (h1 : tf.new_with_restriction none (some R) = .fresh f1) :
    f1.new_with_restriction none (some f1.relationLabelsPresent) = .fresh f1 := by
  rcases tf with ⟨e2i, r2i, mt, inv⟩
  obtain rfl : inv = none := hinv
  have hred : TriplesFactory.new_with_restriction ⟨e2i, r2i, mt, none⟩ none (some R) =
      match TriplesFactory.get_mask_for_relations ⟨e2i, r2i, mt, none⟩ R false with
      | .error e => .err e
      | .ok mask => .fresh ⟨e2i, r2i, maskSelect mt mask, none⟩ := rfl
  rw [hred] at h1
  rcases hids : lookupAll r2i R with e | ids
  · have hmask : TriplesFactory.get_mask_for_relations ⟨e2i, r2i, mt, none⟩ R false =
        .error e := by
      rw [TriplesFactory.get_mask_for_relations, TriplesFactory.relations_to_ids]
      show (match lookupAll r2i R with
        | .error e => Except.error e
        | .ok ids => Except.ok (mt.map (fun x : Triple => xor (ids.contains x.r) false))) = .error e
      rw [hids]
    rw [hmask] at h1
    cases h1
  · have hmask : TriplesFactory.get_mask_for_relations ⟨e2i, r2i, mt, none⟩ R false =
        .ok (mt.map (fun x => ids.contains x.r)) := by
      rw [TriplesFactory.get_mask_for_relations, TriplesFactory.relations_to_ids]
      show (match lookupAll r2i R with
        | .error e => Except.error e
        | .ok ids => Except.ok (mt.map (fun x : Triple => xor (ids.contains x.r) false))) =
        .ok (mt.map (fun x : Triple => ids.contains x.r))
      rw [hids]
      simp [Bool.xor_false]
    rw [hmask] at h1
    have h2 : RestrictResult.fresh
        ⟨e2i, r2i, maskSelect mt (mt.map (fun x => ids.contains x.r)), none⟩ =
        .fresh f1 := h1
    rw [maskSelect_map_self] at h2
    have h3 : (⟨e2i, r2i, mt.filter (fun x => ids.contains x.r), none⟩ : TriplesFactory) =
        f1 := by
      cases h2
      rfl
    subst h3
    refine restriction_by_present_labels _ rfl hnd ?_
    intro x hx
    have hxr : ids.contains x.r = true := (List.mem_filter.1 hx).2
    have hxin : x.r ∈ ids := by simpa using hxr
    rcases lookupAll_ok_forall_mem hids x.r hxin with ⟨k, _, hlook⟩
    exact ⟨(k, x.r), mem_of_lookup_eq_some hlook, rfl⟩

/-- Claim C5 counterexample: on the inverse-bearing factory built from
(a, likes, b), the first restriction to the relation set containing
likes succeeds, its result contains the labels likes and likes_inverse,
and the second restriction with exactly that label set raises KeyError
on likes_inverse instead of returning an identical triple set. -/
theorem claim_C5_restriction_idempotent_counterexample :
    tfL8.new_with_restriction none (some ["likes"]) = .fresh c5f1 ∧
    c5f1.relationLabelsPresent = ["likes", "likes_inverse"] ∧
    c5f1.new_with_restriction none (some ["likes", "likes_inverse"]) =
      .err "KeyError: likes_inverse" := by
  refine ⟨by decide, by decide, by decide⟩

/-- Claim C5 witness: the amended property on a concrete factory
without inverse relations. -/
theorem claim_C5_restriction_idempotent_witness :
    tfNoInv.relation_to_inverse = none ∧
    tfNoInv.new_with_restriction none (some ["likes"]) = .fresh c5w1 ∧
    c5w1.new_with_restriction none (some c5w1.relationLabelsPresent) = .fresh c5w1 :=
  ⟨by decide, by decide,
   claim_C5_restriction_idempotent_amended tfNoInv ["likes"] c5w1
     (by decide) (by decide) (by decide)⟩

/-- Claim C8: building a factory from the single triple (a, likes, b)
with inverse creation yields exactly the two relation entries likes and
likes_inverse with ids 0 and 1, an id row list of exactly two rows, and
an inverse relation id lookup for likes giving the id assigned to
likes_inverse. -/
theorem claim_C8_inverse_scenario :
    tfL8.relation_to_id = [("likes", 0), ("likes_inverse", 1)] ∧
    tfL8.mapped_triples.length = 2 ∧
    tfL8.get_inverse_relation_id "likes" = Except.ok 1 ∧
    tfL8.relation_to_id.lookup "likes_inverse" = some 1 := by
  refine ⟨by decide, by decide, ?_, by decide⟩
  rfl
